import Mathlib

/-!
Verification development for the create-dart-test extension.

The extension scans Dart documents for class declarations, derives the
path of a companion test file together with an import string, renders a
boilerplate test body, and either opens a pre-existing test file or
creates a new one.

The embedding below models, on `List Char` / `String`:
  * the Node `path.posix` primitives the code calls (`join`, `dirname`,
    `basename`, `extname`, `relative`, the separator being `/`),
  * the two regular expressions (`DART_CLASS_REGEX` and the
    `pubspec.yaml` `name:` matcher), resolved into deterministic
    scanners (the alternation branches of the regexes have pairwise
    distinct first characters, and every backtracking opportunity dies
    on a first-character mismatch, so the greedy deterministic scan
    computes exactly the regex match),
  * the filesystem as an association list from paths to byte contents,
    with the orchestrator returning the new filesystem plus the list of
    side-effecting actions it performed.
-/

namespace CreateDartTest

/-! ### Node `path.posix` model -/

/-- Model of JavaScript `s.split('/')` on character lists. -/
def splitSlash : List Char → List (List Char)
  | [] => [[]]
  | c :: rest =>
    if c = '/' then [] :: splitSlash rest
    else
      match splitSlash rest with
      | s :: ss => (c :: s) :: ss
      | [] => [[c]]

/-- Model of JavaScript `parts.join('/')` on character lists. -/
def renderSegs : List (List Char) → List Char
  | [] => []
  | [s] => s
  | s :: rest => s ++ '/' :: renderSegs rest

/-- Model of Node `normalizeString`: resolves `.`, `..` and empty
segments; `allowAbove` keeps leading `..` segments (relative paths). -/
def normSegs (allowAbove : Bool) : List (List Char) → List (List Char) → List (List Char)
  | acc, [] => acc.reverse
  | acc, s :: rest =>
    if s = [] ∨ s = ['.'] then normSegs allowAbove acc rest
    else if s = ['.', '.'] then
      match acc with
      | [] => if allowAbove then normSegs allowAbove [s] rest else normSegs allowAbove [] rest
      | a :: as =>
        if a = ['.', '.'] then normSegs allowAbove (s :: acc) rest
        else normSegs allowAbove as rest
    else normSegs allowAbove (s :: acc) rest

/-- True when the last character is a slash. -/
def hasTrailSlash (l : List Char) : Bool :=
  match l.getLast? with
  | some c => c == '/'
  | none => false

/-- Model of Node `path.posix.normalize`. -/
def pnormalizeL (l : List Char) : List Char :=
  match l with
  | [] => ['.']
  | c :: rest =>
    if c = '/' then
      let body := renderSegs (normSegs false [] (splitSlash (c :: rest)))
      if body = [] then ['/']
      else '/' :: (if hasTrailSlash (c :: rest) then body ++ ['/'] else body)
    else
      let body := renderSegs (normSegs true [] (splitSlash (c :: rest)))
      if body = [] then (if hasTrailSlash (c :: rest) then ['.', '/'] else ['.'])
      else (if hasTrailSlash (c :: rest) then body ++ ['/'] else body)

/-- Model of Node `path.posix.join`: join the non-empty parts with `/`
and normalize the result. -/
def pjoinL (parts : List (List Char)) : List Char :=
  match parts.filter (fun p => !p.isEmpty) with
  | [] => ['.']
  | ne => pnormalizeL (renderSegs ne)

/-- Model of Node `path.posix.dirname`: skip trailing slashes of the
tail, then cut before the last remaining slash; a slashless tail gives
`.` (or `/` for a rooted path), and the root-adjacent special case gives
`//`, exactly as in Node's index scan (which only looks at indices
from 1 on). -/
def pdirnameL : List Char → List Char
  | [] => ['.']
  | c0 :: rest =>
    match (rest.reverse).dropWhile (fun c => c == '/') with
    | [] => if c0 = '/' then ['/'] else ['.']
    | a :: b =>
      match (a :: b).dropWhile (fun c => c != '/') with
      | [] => if c0 = '/' then ['/'] else ['.']
      | _ :: before =>
        if c0 = '/' ∧ before = [] then ['/', '/']
        else c0 :: before.reverse

/-- Model of Node `path.posix.basename` (one-argument form). -/
def pbasenameL (l : List Char) : List Char :=
  ((l.reverse.dropWhile (fun c => c == '/')).takeWhile (fun c => c != '/')).reverse

/-- Model of Node `path.posix.basename(p, ext)`: the basename with a
matching extension suffix removed, unless the whole basename equals the
extension. -/
def pbasenameExtL (p e : List Char) : List Char :=
  let b := pbasenameL p
  if e ≠ [] ∧ e ≠ b ∧ e.isSuffixOf b then b.take (b.length - e.length) else b

/-- Model of Node `path.posix.extname`: the suffix of the basename from
its last dot, empty when the dot is leading, absent, or the basename is
`..`. -/
def pextnameL (p : List Char) : List Char :=
  let b := pbasenameL p
  if b = ['.', '.'] then []
  else
    match (b.reverse).findIdx? (fun c => c == '.') with
    | none => []
    | some r => if r = b.length - 1 then [] else b.drop (b.length - 1 - r)

/-- Segments of a path resolved against the filesystem root: model of
Node `path.posix.resolve` for the uses in this code, where either the
argument is absolute or both arguments of `relative` are relative, so
the working-directory components cancel. -/
def presolveSegs (l : List Char) : List (List Char) :=
  normSegs false [] (splitSlash l)

/-- Drop the longest common prefix of two segment lists. -/
def dropCommon : List (List Char) → List (List Char) → List (List Char) × List (List Char)
  | a :: as, b :: bs => if a = b then dropCommon as bs else (a :: as, b :: bs)
  | as, bs => (as, bs)

/-- Model of Node `path.posix.relative`. -/
def prelativeL (f t : List Char) : List Char :=
  let p := dropCommon (presolveSegs f) (presolveSegs t)
  renderSegs (List.replicate p.1.length ['.', '.'] ++ p.2)

/-- String wrapper for `pdirnameL`. -/
def pdirname (s : String) : String := String.mk (pdirnameL s.data)

/-- String wrapper for `pbasenameL`. -/
def pbasename (s : String) : String := String.mk (pbasenameL s.data)

/-- String wrapper for `pbasenameExtL`. -/
def pbasenameExt (s e : String) : String := String.mk (pbasenameExtL s.data e.data)

/-- String wrapper for `pextnameL`. -/
def pextname (s : String) : String := String.mk (pextnameL s.data)

/-- String wrapper for a two-argument `path.join`. -/
def pjoin2 (a b : String) : String := String.mk (pjoinL [a.data, b.data])

/-- String wrapper for a three-argument `path.join`. -/
def pjoin3 (a b c : String) : String := String.mk (pjoinL [a.data, b.data, c.data])

/-- String wrapper for `prelativeL`. -/
def prelative (f t : String) : String := String.mk (prelativeL f.data t.data)

/-- The platform path separator; the model is POSIX. -/
def pathSep : String := "/"

/-- Model of `s.split(path.sep).join('/')`, the separator normalization
the code applies to import strings. -/
def fwdSlashes (s : String) : String := String.mk (renderSegs (splitSlash s.data))

/-! ### Character classes of the two regular expressions -/

/-- JavaScript regex `\s` (the whitespace class used by `DART_CLASS_REGEX`
and the pubspec `name:` regex); note that it contains the line
terminators. -/
def isJsSpace (c : Char) : Bool :=
  (c.toNat == 9) || (c.toNat == 10) || (c.toNat == 11) || (c.toNat == 12) ||
  (c.toNat == 13) || (c.toNat == 32) || (c.toNat == 160) || (c.toNat == 5760) ||
  (decide (8192 ≤ c.toNat) && decide (c.toNat ≤ 8202)) ||
  (c.toNat == 8232) || (c.toNat == 8233) || (c.toNat == 8239) ||
  (c.toNat == 8287) || (c.toNat == 12288) || (c.toNat == 65279)

/-- Regex class `[A-Za-z_]`, the first identifier character. -/
def isIdStart (c : Char) : Bool :=
  (decide (65 ≤ c.toNat) && decide (c.toNat ≤ 90)) ||
  (decide (97 ≤ c.toNat) && decide (c.toNat ≤ 122)) || (c.toNat == 95)

/-- Regex class `[A-Za-z0-9_]`, a subsequent identifier character. -/
def isIdChar (c : Char) : Bool :=
  isIdStart c || (decide (48 ≤ c.toNat) && decide (c.toNat ≤ 57))

/-- Regex class `[a-z_]`, the first package-name character. -/
def isPkgStart (c : Char) : Bool :=
  (decide (97 ≤ c.toNat) && decide (c.toNat ≤ 122)) || (c.toNat == 95)

/-- Regex class `[a-z0-9_]`, a subsequent package-name character. -/
def isPkgChar (c : Char) : Bool :=
  isPkgStart c || (decide (48 ≤ c.toNat) && decide (c.toNat ≤ 57))

/-- JavaScript line terminators (`\n`, `\r`, U+2028, U+2029), after which
a multiline `^` anchor matches and before which `$` matches. -/
def isLineTerm (c : Char) : Bool :=
  (c.toNat == 10) || (c.toNat == 13) || (c.toNat == 8232) || (c.toNat == 8233)

/-! ### The class-declaration matcher (`DART_CLASS_REGEX`) -/

/-- The keyword `class` as a character list. -/
def kwClass : List Char := ['c', 'l', 'a', 's', 's']

/-- The closed modifier set of the regex alternation
`(?:abstract|base|interface|final|sealed|mixin)`, in source order. -/
def dartModifiers : List (List Char) :=
  [['a', 'b', 's', 't', 'r', 'a', 'c', 't'],
   ['b', 'a', 's', 'e'],
   ['i', 'n', 't', 'e', 'r', 'f', 'a', 'c', 'e'],
   ['f', 'i', 'n', 'a', 'l'],
   ['s', 'e', 'a', 'l', 'e', 'd'],
   ['m', 'i', 'x', 'i', 'n']]

/-- Remove a literal prefix, returning the remainder on success. -/
def stripPref : List Char → List Char → Option (List Char)
  | [], l => some l
  | _ :: _, [] => none
  | p :: ps, c :: cs => if p = c then stripPref ps cs else none

/-- One iteration of the regex group `(?:(?:abstract|…|mixin)\s+)`: try
the alternatives in order; on a hit the modifier word and the maximal
following whitespace run (which must be non-empty) are consumed. -/
def tryMods : List (List Char) → List Char → Option (List Char)
  | [], _ => none
  | m :: ms, l =>
    match stripPref m l with
    | some r =>
      match r with
      | c :: _ => if isJsSpace c then some (r.dropWhile isJsSpace) else tryMods ms l
      | [] => tryMods ms l
    | none => tryMods ms l

/-- Fuelled iteration of `tryMods`; each successful step strictly
shortens the input, so `l.length` fuel is always enough. -/
def munchModsF : Nat → List Char → List Char
  | 0, l => l
  | n + 1, l =>
    match tryMods dartModifiers l with
    | some r => munchModsF n r
    | none => l

/-- The regex group `(?:(?:abstract|…|mixin)\s+)*`: consume modifier
keywords each followed by whitespace, as long as possible. -/
def munchMods (l : List Char) : List Char := munchModsF l.length l

/-- Deterministic evaluation of `DART_CLASS_REGEX` on one line: leading
`\s*`, the modifier group, the literal `class`, `\s+`, then the captured
identifier `[A-Za-z_][A-Za-z0-9_]*`.  The six modifier words and the
keyword `class` have pairwise distinct first characters and no
whitespace character is an identifier character, so the regex engine's
backtracking never changes the outcome and the greedy scan below is
exact. -/
def matchClassName (l : List Char) : Option (List Char) :=
  match stripPref kwClass (munchMods (l.dropWhile isJsSpace)) with
  | none => none
  | some r =>
    match r with
    | c :: _ =>
      if isJsSpace c then
        match r.dropWhile isJsSpace with
        | d :: ds => if isIdStart d then some (d :: ds.takeWhile isIdChar) else none
        | [] => none
      else none
    | [] => none

/-- Model of JavaScript `text.split(/\r?\n/)`, the line splitting done by
`DartTestCodeLensProvider.provideCodeLenses`. -/
def jsSplitRN : List Char → List (List Char)
  | [] => [[]]
  | '\r' :: '\n' :: rest => [] :: jsSplitRN rest
  | '\n' :: rest => [] :: jsSplitRN rest
  | c :: rest =>
    match jsSplitRN rest with
    | s :: ss => (c :: s) :: ss
    | [] => [[c]]

/-- Model of `DartTestCodeLensProvider.provideCodeLenses`: the class name
found on each line of the document, in order (lines without a class site
contribute nothing). -/
def provideCodeLensNames (text : String) : List String :=
  ((jsSplitRN text.data).filterMap matchClassName).map String.mk

/-! ### The filesystem model and `pubspec.yaml` name resolution -/

/-- The filesystem visible to the orchestrator: a map from absolute
paths to byte contents.  A missing key models both an absent and an
unreadable file (every read failure is caught and treated alike). -/
structure FS where
  files : List (String × String)
deriving DecidableEq

/-- Model of a caught `vscode.workspace.fs.readFile`. -/
def FS.read (fs : FS) (p : String) : Option String := fs.files.lookup p

/-- Model of `fileExists` (a caught `stat`). -/
def fileExists (fs : FS) (p : String) : Bool := (FS.read fs p).isSome

/-- Model of `vscode.workspace.fs.writeFile`. -/
def FS.writeFile (fs : FS) (p c : String) : FS := ⟨(p, c) :: fs.files⟩

/-- The literal `name:` as a character list. -/
def kwNameColon : List Char := ['n', 'a', 'm', 'e', ':']

/-- True after the captured identifier: the remaining `\s*` must reach
the end of input or a line terminator for the multiline `$` to match. -/
def endsOk : List Char → Bool
  | [] => true
  | c :: cs => if isLineTerm c then true else if isJsSpace c then endsOk cs else false

/-- Try the pubspec regex `^name:\s*([a-z_][a-z0-9_]*)\s*$` at one
position (which the caller guarantees is a line start).  `\s*` is
resolved greedily; no whitespace character is a package-name character,
so backtracking inside `\s*` cannot create a match this scan misses. -/
def matchNameAt (l : List Char) : Option (List Char) :=
  match stripPref kwNameColon l with
  | none => none
  | some r =>
    match r.dropWhile isJsSpace with
    | c :: cs =>
      if isPkgStart c then
        if endsOk (cs.dropWhile isPkgChar) then some (c :: cs.takeWhile isPkgChar) else none
      else none
    | [] => none

/-- Scan every line-start position of the content, left to right, for a
match of the pubspec `name:` regex; `atStart` records whether the
current position follows a line terminator (or is position zero). -/
def scanName (atStart : Bool) : List Char → Option (List Char)
  | [] => none
  | c :: rest =>
    if atStart then
      match matchNameAt (c :: rest) with
      | some s => some s
      | none => scanName (isLineTerm c) rest
    else scanName (isLineTerm c) rest

/-- The first match of the multiline pubspec `name:` regex in a content
string (JavaScript `content.match(...)`, capture group 1). -/
def findName (l : List Char) : Option (List Char) := scanName true l

/-- Model of `getPackageName`: read `pubspec.yaml` under the workspace
root and extract the package identifier; any read failure and a missing
match both yield `none`. -/
def getPackageName (fs : FS) (workspaceRoot : String) : Option String :=
  match FS.read fs (pjoin2 workspaceRoot "pubspec.yaml") with
  | none => none
  | some content => (findName content.data).map String.mk

/-! ### Path derivation -/

/-- The result of path derivation. -/
structure TestFileInfo where
  testPath : String
  importPath : String
deriving DecidableEq

/-- Model of `isUnderLibDirectory`: the relative path starts with the
`lib` directory prefix (`path.sep` is `/` in the POSIX model, so both
disjuncts of the source coincide). -/
def isUnderLibDirectory (relativePath : String) : Bool :=
  ("lib" ++ pathSep).data.isPrefixOf relativePath.data ||
  ("lib/").data.isPrefixOf relativePath.data

/-- Model of `calculateTestFileInfoForLib`. -/
def calculateTestFileInfoForLib (workspaceRoot sourcePath relativePath sourceFileName ext : String)
    (packageName : Option String) : TestFileInfo :=
  let pathUnderLib : String := String.mk (relativePath.data.drop 4)
  let dirUnderLib := pdirname pathUnderLib
  let testFileName := sourceFileName ++ "_test" ++ ext
  let testDir := pjoin3 workspaceRoot "test" dirUnderLib
  let testPath := pjoin2 testDir testFileName
  let importPath :=
    match packageName with
    | some pn => "package:" ++ pn ++ "/" ++ fwdSlashes pathUnderLib
    | none =>
      let testRelativePath := prelative workspaceRoot testPath
      let sourceRelativePath := prelative workspaceRoot sourcePath
      fwdSlashes (prelative (pdirname testRelativePath) sourceRelativePath)
  { testPath := testPath, importPath := importPath }

/-- Model of `calculateTestFileInfoForNonLib`. -/
def calculateTestFileInfoForNonLib (sourcePath sourceFileName ext : String) : TestFileInfo :=
  let sourceDir := pdirname sourcePath
  let testFileName := sourceFileName ++ "_test" ++ ext
  let testPath := pjoin2 sourceDir testFileName
  let importPath := "./" ++ sourceFileName ++ ext
  { testPath := testPath, importPath := importPath }

/-- Model of `generateTestContent`, byte for byte. -/
def generateTestContent (className importPath : String) : String :=
  "import \x27" ++ importPath ++ "\x27;\n\n" ++
  "void main() \x7b\n" ++
  "  group(\x27" ++ className ++ "\x27, () \x7b\n\n" ++
  "  \x7d);\n" ++
  "\x7d\n"

/-! ### The orchestrator -/

/-- The side-effecting steps `handleCreateTestCommand` can perform, in
order of execution. -/
inductive FsAction where
  | createDir (p : String)
  | write (p content : String)
  | openDoc (p : String)
  | infoMsg (m : String)
  | errorMsg (m : String)
deriving DecidableEq

/-- The `TestFileInfo` the orchestrator computes for a source path inside
a workspace (source lines 288 to 309): extension and basename of the
source, the path relative to the root, the resolved package name, and
the branch on `isUnderLibDirectory`. -/
def derivedTestFileInfo (fs : FS) (workspaceRoot sourcePath : String) : TestFileInfo :=
  let ext := pextname sourcePath
  let sourceFileName := pbasenameExt sourcePath ext
  let relativePath := prelative workspaceRoot sourcePath
  let packageName := getPackageName fs workspaceRoot
  if isUnderLibDirectory relativePath then
    calculateTestFileInfoForLib workspaceRoot sourcePath relativePath sourceFileName ext packageName
  else
    calculateTestFileInfoForNonLib sourcePath sourceFileName ext

/-- Model of `handleCreateTestCommand`: `workspaceRoot?` is the result of
`getWorkspaceFolder` (none when the file is in no workspace folder);
returns the filesystem after the call and the performed actions. -/
def handleCreateTestCommand (fs : FS) (workspaceRoot? : Option String)
    (sourcePath className : String) : FS × List FsAction :=
  match workspaceRoot? with
  | none => (fs, [FsAction.errorMsg "File is not in a workspace folder"])
  | some workspaceRoot =>
    let info := derivedTestFileInfo fs workspaceRoot sourcePath
    if fileExists fs info.testPath then
      (fs, [FsAction.openDoc info.testPath,
            FsAction.infoMsg ("Test file already exists: " ++ pbasename info.testPath)])
    else
      let content := generateTestContent className info.importPath
      (FS.writeFile fs info.testPath content,
       [FsAction.createDir (pdirname info.testPath),
        FsAction.write info.testPath content,
        FsAction.openDoc info.testPath,
        FsAction.infoMsg ("Created test: " ++ prelative workspaceRoot info.testPath)])

/-- A path segment that survives normalization unchanged: non-empty, not
a dot segment, and free of separators. -/
def cleanSegL (s : List Char) : Prop :=
  s ≠ [] ∧ s ≠ ['.'] ∧ s ≠ ['.', '.'] ∧ ∀ c ∈ s, c ≠ '/'

instance (s : List Char) : Decidable (cleanSegL s) := by
  unfold cleanSegL
  exact inferInstance

/-! ### Specification-side predicates for the class-declaration matcher -/

/-- A non-empty run of regex whitespace, the `\s+` after a modifier and
after the `class` keyword. -/
def jsWsRun (w : List Char) : Prop :=
  w ≠ [] ∧ ∀ c ∈ w, isJsSpace c = true

/-- A well-formed identifier token `[A-Za-z_][A-Za-z0-9_]*`. -/
def identTok : List Char → Prop
  | [] => False
  | c :: cs => isIdStart c = true ∧ ∀ x ∈ cs, isIdChar x = true

/-- The text matched by `(?:(?:abstract|base|interface|final|sealed|mixin)\s+)*`:
a concatenation of modifier keywords from the closed set, each followed
by a non-empty whitespace run. -/
inductive ModsChain : List Char → Prop where
  | nil : ModsChain []
  | cons (m w rest : List Char) : m ∈ dartModifiers → jsWsRun w → ModsChain rest →
      ModsChain (m ++ w ++ rest)

/-- The specification of a matching class-declaration line with captured
class name `name`: optional whitespace, a modifier chain, the literal
`class`, mandatory whitespace, the identifier, and a remainder that
cannot extend the identifier. -/
def specClassLine (l name : List Char) : Prop :=
  ∃ w0 mods wc rest,
    (∀ c ∈ w0, isJsSpace c = true) ∧ ModsChain mods ∧ jsWsRun wc ∧ identTok name ∧
    (rest = [] ∨ ∃ d ds, rest = d :: ds ∧ isIdChar d = false) ∧
    l = w0 ++ mods ++ kwClass ++ wc ++ name ++ rest

/-! ### Specification-side predicates for the pubspec name line -/

/-- Split a content string at every line terminator (each terminator
character ends a line). -/
def splitLinesGo (cur : List Char) : List Char → List (List Char)
  | [] => [cur.reverse]
  | c :: rest =>
    if isLineTerm c then cur.reverse :: splitLinesGo [] rest
    else splitLinesGo (c :: cur) rest

/-- The lines of a content string. -/
def splitLines (l : List Char) : List (List Char) := splitLinesGo [] l

/-- The lines after the first line of a content string. -/
def splitTail (l : List Char) : List (List Char) :=
  match l.dropWhile (fun c => !isLineTerm c) with
  | [] => []
  | _ :: rest => splitLinesGo [] rest

/-- A single line of the form `name: <identifier>` (the claimed trigger
of package-name resolution): the literal `name:`, optional whitespace,
a `[a-z_][a-z0-9_]*` identifier, then only trailing whitespace. -/
def lineIsNameDecl (l : List Char) : Bool :=
  match stripPref kwNameColon l with
  | none => false
  | some r =>
    match r.dropWhile isJsSpace with
    | c :: cs => isPkgStart c && (cs.dropWhile isPkgChar).all isJsSpace
    | [] => false

/-- The manifest content contains a line of the form `name: <identifier>`. -/
def hasNameLine (content : String) : Bool :=
  (splitLines content.data).any lineIsNameDecl

/-! ### Helper lemmas: strings and the path model -/

theorem strExt {a b : String} (h : a.data = b.data) : a = b :=
  congrArg String.mk h

theorem strData_append (a b : String) : (a ++ b).data = a.data ++ b.data := rfl

theorem splitSlash_ne_nil (l : List Char) : splitSlash l ≠ [] := by
  cases l with
  | nil => simp [splitSlash]
  | cons c rest =>
    simp only [splitSlash]
    split
    · simp
    · cases h : splitSlash rest <;> simp

theorem renderSegs_cons (s : List Char) {rest : List (List Char)} (h : rest ≠ []) :
    renderSegs (s :: rest) = s ++ '/' :: renderSegs rest := by
  cases rest with
  | nil => exact absurd rfl h
  | cons a b => rfl

theorem splitSlash_cons_slash (l : List Char) : splitSlash ('/' :: l) = [] :: splitSlash l := by
  simp [splitSlash]

theorem splitSlash_cons_ne {c : Char} (hc : c ≠ '/') (l : List Char) :
    splitSlash (c :: l) =
      match splitSlash l with
      | s :: ss => (c :: s) :: ss
      | [] => [[c]] := by
  simp [splitSlash, hc]

theorem renderSegs_splitSlash (l : List Char) : renderSegs (splitSlash l) = l := by
  induction l with
  | nil => rfl
  | cons c rest ih =>
    by_cases hc : c = '/'
    · subst hc
      rw [splitSlash_cons_slash]
      rw [renderSegs_cons _ (splitSlash_ne_nil rest)]
      simp [ih]
    · rw [splitSlash_cons_ne hc]
      cases h : splitSlash rest with
      | nil => exact absurd h (splitSlash_ne_nil rest)
      | cons s ss =>
        rw [h] at ih
        cases ss with
        | nil => simp only [renderSegs] at ih ⊢; simp [ih]
        | cons t ts =>
          rw [renderSegs_cons _ (by simp : t :: ts ≠ [])] at ih
          rw [renderSegs_cons _ (by simp : t :: ts ≠ [])]
          simp [← ih]

theorem fwdSlashes_id (s : String) : fwdSlashes s = s := by
  apply strExt
  simp [fwdSlashes, renderSegs_splitSlash]

theorem splitSlash_append_seg {s : List Char} (hs : ∀ c ∈ s, c ≠ '/') (t : List Char) :
    splitSlash (s ++ '/' :: t) = s :: splitSlash t := by
  induction s with
  | nil => simp [splitSlash_cons_slash]
  | cons c cs ih =>
    have hc : c ≠ '/' := hs c (by simp)
    have ih' := ih (fun x hx => hs x (by simp [hx]))
    rw [List.cons_append, splitSlash_cons_ne hc, ih']

theorem splitSlash_noSlash {s : List Char} (hs : ∀ c ∈ s, c ≠ '/') :
    splitSlash s = [s] := by
  induction s with
  | nil => rfl
  | cons c cs ih =>
    have hc : c ≠ '/' := hs c (by simp)
    have ih' := ih (fun x hx => hs x (by simp [hx]))
    rw [splitSlash_cons_ne hc, ih']

theorem splitSlash_render_append {S : List (List Char)}
    (hS : ∀ seg ∈ S, ∀ c ∈ seg, c ≠ '/') (hne : S ≠ []) (t : List Char) :
    splitSlash (renderSegs S ++ '/' :: t) = S ++ splitSlash t := by
  induction S with
  | nil => exact absurd rfl hne
  | cons s S' ih =>
    cases S' with
    | nil => simpa using splitSlash_append_seg (hS s (by simp)) t
    | cons u us =>
      rw [renderSegs_cons _ (by simp : u :: us ≠ [])]
      have : (s ++ '/' :: renderSegs (u :: us)) ++ '/' :: t
          = s ++ '/' :: (renderSegs (u :: us) ++ '/' :: t) := by simp
      rw [this, splitSlash_append_seg (hS s (by simp))]
      rw [ih (fun seg hseg => hS seg (by simp [hseg])) (by simp)]
      simp

theorem splitSlash_render {S : List (List Char)}
    (hS : ∀ seg ∈ S, ∀ c ∈ seg, c ≠ '/') (hne : S ≠ []) :
    splitSlash (renderSegs S) = S := by
  induction S with
  | nil => exact absurd rfl hne
  | cons s S' ih =>
    cases S' with
    | nil => simpa using splitSlash_noSlash (hS s (by simp))
    | cons u us =>
      rw [renderSegs_cons _ (by simp : u :: us ≠ [])]
      rw [splitSlash_append_seg (hS s (by simp))]
      rw [ih (fun seg hseg => hS seg (by simp [hseg])) (by simp)]

theorem normSegs_clean_append (b : Bool) {S : List (List Char)} (rest : List (List Char))
    (h : ∀ s ∈ S, cleanSegL s) :
    ∀ acc, normSegs b acc (S ++ rest) = normSegs b (S.reverse ++ acc) rest := by
  induction S with
  | nil => intro acc; simp
  | cons s S' ih =>
    intro acc
    obtain ⟨h1, h2, h3, _⟩ := h s (by simp)
    have step : normSegs b acc ((s :: S') ++ rest) = normSegs b (s :: acc) (S' ++ rest) := by
      simp only [List.cons_append, normSegs, List.append_eq]
      rw [if_neg (by tauto), if_neg h3]
    rw [step, ih (fun x hx => h x (by simp [hx])) (s :: acc)]
    simp

theorem normSegs_nil_seg (b : Bool) (acc rest : List (List Char)) :
    normSegs b acc ([] :: rest) = normSegs b acc rest := by
  simp [normSegs]

theorem normSegs_dot_seg (b : Bool) (acc rest : List (List Char)) :
    normSegs b acc (['.'] :: rest) = normSegs b acc rest := by
  simp [normSegs]

theorem normSegs_done (b : Bool) (acc : List (List Char)) :
    normSegs b acc [] = acc.reverse := rfl

theorem normSegs_clean (b : Bool) {S : List (List Char)} (h : ∀ s ∈ S, cleanSegL s) :
    normSegs b [] S = S := by
  have := normSegs_clean_append b [] h []
  simpa [normSegs_done] using this

theorem renderSegs_nil_cases {S : List (List Char)} (h : renderSegs S = []) :
    S = [] ∨ S = [[]] := by
  match S with
  | [] => exact Or.inl rfl
  | [s] => exact Or.inr (by simpa [renderSegs] using h)
  | s :: u :: us =>
    rw [renderSegs_cons _ (by simp : u :: us ≠ [])] at h
    rcases List.append_eq_nil.mp h with ⟨-, h2⟩
    simp at h2

theorem renderSegs_ne_nil_of_mem {S : List (List Char)} {t : List Char}
    (ht : t ∈ S) (htne : t ≠ []) : renderSegs S ≠ [] := by
  intro h
  rcases renderSegs_nil_cases h with rfl | rfl
  · simp at ht
  · simp at ht; exact htne ht

theorem hasTrailSlash_append_false {s : List Char} (x : List Char)
    (hne : s ≠ []) (hs : ∀ c ∈ s, c ≠ '/') : hasTrailSlash (x ++ s) = false := by
  have hlast : (x ++ s).getLast? = s.getLast? := List.getLast?_append_of_ne_nil _ hne
  have : s.getLast? = some (s.getLast hne) := List.getLast?_eq_getLast s hne
  have hmem : s.getLast hne ∈ s := List.getLast_mem hne
  have hns : s.getLast hne ≠ '/' := hs _ hmem
  simp only [hasTrailSlash, hlast, this]
  simp [hns]

theorem renderSegs_append_single (S : List (List Char)) (p : List Char) (h : S ≠ []) :
    renderSegs (S ++ [p]) = renderSegs S ++ '/' :: p := by
  induction S with
  | nil => exact absurd rfl h
  | cons s S' ih =>
    cases S' with
    | nil => simp [renderSegs]
    | cons u us =>
      rw [List.cons_append, renderSegs_cons _ (by simp : (u :: us) ++ [p] ≠ [])]
      rw [renderSegs_cons _ (by simp : u :: us ≠ [])]
      rw [ih (by simp)]
      simp

theorem dropCommon_append (R : List (List Char)) (a b : List (List Char)) :
    dropCommon (R ++ a) (R ++ b) = dropCommon a b := by
  induction R with
  | nil => simp [dropCommon]
  | cons r R' ih =>
    simp only [List.cons_append, dropCommon, if_pos rfl]
    exact ih

theorem dropCommon_nil_left (b : List (List Char)) : dropCommon [] b = ([], b) := by
  cases b <;> rfl

theorem dropCommon_cons_ne {a b : List Char} (h : a ≠ b) (as bs : List (List Char)) :
    dropCommon (a :: as) (b :: bs) = (a :: as, b :: bs) := by
  simp [dropCommon, if_neg h]

theorem pdirnameL_noSlash {f : List Char} (hf : ∀ c ∈ f, c ≠ '/') :
    pdirnameL f = ['.'] := by
  cases f with
  | nil => rfl
  | cons c0 rest =>
    have hc0 : c0 ≠ '/' := hf c0 (by simp)
    have hall : ∀ c ∈ rest.reverse, c ≠ '/' := by
      intro c hc
      exact hf c (by simp at hc; simp [hc])
    cases hh : rest.reverse with
    | nil => simp [pdirnameL, hh, hc0]
    | cons a b =>
      have ha : a ≠ '/' := hall a (by rw [hh]; simp)
      have h2 : (a :: b).dropWhile (fun c => c != '/') = [] := by
        apply List.dropWhile_eq_nil_iff.mpr
        intro x hx
        simp only [bne_iff_ne, ne_eq]
        exact hall x (by rw [hh]; exact hx)
      have hdrop : (a :: b).dropWhile (fun c => c == '/') = a :: b := by
        apply List.dropWhile_cons_of_neg
        simp [ha]
      simp [pdirnameL, hh, hdrop, h2, hc0]

theorem pdirnameL_append {a f : List Char} (ha : a ≠ []) (ha2 : a ≠ ['/'])
    (hf : f ≠ []) (hfs : ∀ c ∈ f, c ≠ '/') :
    pdirnameL (a ++ '/' :: f) = a := by
  cases a with
  | nil => exact absurd rfl ha
  | cons c0 a' =>
    cases hfr : f.reverse with
    | nil => exact absurd (by simpa using hfr) hf
    | cons y ys =>
      have hy : y ≠ '/' := by
        have hyf : y ∈ f := by
          have : y ∈ f.reverse := by rw [hfr]; simp
          simpa using this
        exact hfs y hyf
      have hys : ∀ c ∈ ys, c ≠ '/' := by
        intro c hc
        have : c ∈ f.reverse := by rw [hfr]; simp [hc]
        exact hfs c (by simpa using this)
      have hdrop1 : (f.reverse ++ '/' :: a'.reverse).dropWhile (fun c => c == '/')
          = y :: (ys ++ '/' :: a'.reverse) := by
        rw [hfr, List.cons_append]
        apply List.dropWhile_cons_of_neg
        simp [hy]
      have hdrop2 : (y :: (ys ++ '/' :: a'.reverse)).dropWhile (fun c => c != '/')
          = '/' :: a'.reverse := by
        have h1 : ∀ c ∈ y :: ys, (fun c => c != '/') c = true := by
          intro c hc
          rcases List.mem_cons.mp hc with rfl | hc
          · simp [hy]
          · simp [hys c hc]
        have e1 : y :: (ys ++ '/' :: a'.reverse) = (y :: ys) ++ '/' :: a'.reverse := by simp
        rw [e1, List.dropWhile_append_of_pos h1]
        apply List.dropWhile_cons_of_neg
        simp
      have hspec : ¬(c0 = '/' ∧ a'.reverse = []) := by
        rintro ⟨rfl, h0⟩
        exact ha2 (by simp [List.reverse_eq_nil_iff.mp h0])
      simp [pdirnameL, hdrop1, hdrop2, hspec]
      intro h1 h2
      exact absurd ⟨h1, by simp [h2]⟩ hspec

theorem pdirnameL_root {f : List Char} (hf : f ≠ []) (hfs : ∀ c ∈ f, c ≠ '/') :
    pdirnameL ('/' :: f) = ['/'] := by
  cases hfr : f.reverse with
  | nil => exact absurd (by simpa using hfr) hf
  | cons y ys =>
    have hmem : ∀ c ∈ y :: ys, c ≠ '/' := by
      intro c hc
      have : c ∈ f.reverse := by rw [hfr]; exact hc
      exact hfs c (by simpa using this)
    have hy : y ≠ '/' := hmem y (by simp)
    have hdrop1 : (y :: ys).dropWhile (fun c => c == '/') = y :: ys := by
      apply List.dropWhile_cons_of_neg
      simp [hy]
    have hdrop2 : (y :: ys).dropWhile (fun c => c != '/') = [] := by
      apply List.dropWhile_eq_nil_iff.mpr
      intro x hx
      simp [hmem x hx]
    simp [pdirnameL, hfr, hdrop1, hdrop2]

theorem getLast?_append_ne {l' : List Char} (h : l' ≠ []) (l : List Char) :
    (l ++ l').getLast? = l'.getLast? := by
  cases hg : l'.getLast? with
  | none => exact absurd (List.getLast?_eq_none_iff.mp hg) h
  | some c => rw [List.getLast?_append, hg, Option.or_some]

theorem hasTrailSlash_eq_false_of {l : List Char} {d : Char}
    (h : l.getLast? = some d) (hd : d ≠ '/') : hasTrailSlash l = false := by
  simp [hasTrailSlash, h, hd]

theorem getLast?_renderSegs_clean {S : List (List Char)}
    (h : ∀ s ∈ S, cleanSegL s) (hne : S ≠ []) :
    ∃ c, c ≠ '/' ∧ (renderSegs S).getLast? = some c := by
  rcases List.eq_nil_or_concat S with rfl | ⟨L, b, rfl⟩
  · exact absurd rfl hne
  · rw [List.concat_eq_append]
    obtain ⟨hb1, -, -, hb4⟩ := h b (by simp)
    have hbl : b.getLast? = some (b.getLast hb1) := List.getLast?_eq_getLast b hb1
    have hbmem : b.getLast hb1 ∈ b := List.getLast_mem hb1
    cases hL : L.isEmpty with
    | true =>
      have : L = [] := by simpa using hL
      subst this
      exact ⟨b.getLast hb1, hb4 _ hbmem, by simpa [renderSegs] using hbl⟩
    | false =>
      have hLne : L ≠ [] := by
        intro hc; rw [hc] at hL; simp at hL
      rw [renderSegs_append_single L b hLne]
      refine ⟨b.getLast hb1, hb4 _ hbmem, ?_⟩
      rw [getLast?_append_ne (by simp) _]
      cases b with
      | nil => exact absurd rfl hb1
      | cons x xs => rw [List.getLast?_cons_cons]; exact hbl

theorem pnormalizeL_abs {t : List Char} {S : List (List Char)}
    (h1 : normSegs false [] (splitSlash ('/' :: t)) = S)
    (h3 : renderSegs S ≠ [])
    (h4 : hasTrailSlash ('/' :: t) = false) :
    pnormalizeL ('/' :: t) = '/' :: renderSegs S := by
  simp [pnormalizeL, h1, h3, h4]

theorem renderSegs_ne_slash {S : List (List Char)} (h : ∀ s ∈ S, cleanSegL s) :
    renderSegs S ≠ ['/'] := by
  intro hc
  cases S with
  | nil => simp [renderSegs] at hc
  | cons s rest =>
    obtain ⟨h1, -, -, h4⟩ := h s (by simp)
    cases rest with
    | nil =>
      simp only [renderSegs] at hc
      exact h4 '/' (by rw [hc]; simp) rfl
    | cons u us =>
      rw [renderSegs_cons _ (by simp)] at hc
      cases s with
      | nil => exact h1 rfl
      | cons a as =>
        simp only [List.cons_append, List.cons.injEq] at hc
        obtain ⟨rfl, h5⟩ := hc
        exact h4 '/' (by simp) rfl

theorem cleanSegL_testName {sfn ext : List Char}
    (h1 : ∀ c ∈ sfn, c ≠ '/') (h2 : ∀ c ∈ ext, c ≠ '/') :
    cleanSegL (sfn ++ ['_', 't', 'e', 's', 't'] ++ ext) := by
  refine ⟨?_, ?_, ?_, ?_⟩
  · intro h; have := congrArg List.length h; simp at this
  · intro h; have := congrArg List.length h; simp at this; omega
  · intro h; have := congrArg List.length h; simp at this; omega
  · intro c hc
    simp only [List.append_assoc, List.mem_append, List.mem_cons, List.not_mem_nil,
      or_false] at hc
    rcases hc with h | h | h
    · exact h1 c h
    · rcases h with rfl | rfl | rfl | rfl | rfl <;> decide
    · exact h2 c h

theorem isEmpty_false_of_ne {p : List Char} (h : p ≠ []) : p.isEmpty = false := by
  cases p with
  | nil => exact absurd rfl h
  | cons a b => rfl

theorem filter_ne_2 {a b : List Char} (h1 : a ≠ []) (h2 : b ≠ []) :
    [a, b].filter (fun p => !p.isEmpty) = [a, b] := by
  simp [List.filter, isEmpty_false_of_ne h1, isEmpty_false_of_ne h2]

theorem filter_ne_3 {a b c : List Char} (h1 : a ≠ []) (h2 : b ≠ []) (h3 : c ≠ []) :
    [a, b, c].filter (fun p => !p.isEmpty) = [a, b, c] := by
  simp [List.filter, isEmpty_false_of_ne h1, isEmpty_false_of_ne h2, isEmpty_false_of_ne h3]

theorem cleanSegL.noSlash {S : List (List Char)} (h : ∀ s ∈ S, cleanSegL s) :
    ∀ seg ∈ S, ∀ c ∈ seg, c ≠ '/' :=
  fun seg hs => (h seg hs).2.2.2

theorem clean_append {S T : List (List Char)} (hS : ∀ s ∈ S, cleanSegL s)
    (hT : ∀ s ∈ T, cleanSegL s) : ∀ s ∈ S ++ T, cleanSegL s := by
  intro s hs
  rcases List.mem_append.mp hs with h | h
  · exact hS s h
  · exact hT s h

theorem renderSegs_clean_head_ne_nil {s0 : List Char} {S : List (List Char)}
    (h : ∀ s ∈ s0 :: S, cleanSegL s) : renderSegs (s0 :: S) ≠ [] :=
  renderSegs_ne_nil_of_mem (by simp) (h s0 (by simp)).1

theorem pjoinL_abs_seg {S : List (List Char)} {tf : List Char}
    (hS : ∀ s ∈ S, cleanSegL s) (hSne : S ≠ []) (htf : cleanSegL tf) :
    pjoinL [('/' :: renderSegs S), tf] = '/' :: renderSegs (S ++ [tf]) := by
  have htf1 : tf ≠ [] := htf.1
  have htf4 : ∀ c ∈ tf, c ≠ '/' := htf.2.2.2
  have hfil := filter_ne_2 (a := '/' :: renderSegs S) (by simp) htf1
  have hrender : renderSegs [('/' :: renderSegs S), tf]
      = '/' :: (renderSegs S ++ '/' :: tf) := by
    rw [renderSegs_cons _ (by simp : [tf] ≠ [])]
    simp [renderSegs]
  have hsplit : splitSlash ('/' :: (renderSegs S ++ '/' :: tf)) = [] :: (S ++ [tf]) := by
    rw [splitSlash_cons_slash,
      splitSlash_render_append (cleanSegL.noSlash hS) hSne,
      splitSlash_noSlash htf4]
  have hclean : ∀ s ∈ S ++ [tf], cleanSegL s := by
    apply clean_append hS
    intro s hs
    simp at hs
    subst hs
    exact htf
  have hnorm : normSegs false [] (splitSlash ('/' :: (renderSegs S ++ '/' :: tf)))
      = S ++ [tf] := by
    rw [hsplit, normSegs_nil_seg, normSegs_clean _ hclean]
  have hren_ne : renderSegs (S ++ [tf]) ≠ [] :=
    renderSegs_ne_nil_of_mem (by simp) htf1
  have htrail : hasTrailSlash ('/' :: (renderSegs S ++ '/' :: tf)) = false := by
    have e : '/' :: (renderSegs S ++ '/' :: tf)
        = ('/' :: (renderSegs S ++ ['/'])) ++ tf := by simp
    rw [e]
    exact hasTrailSlash_append_false _ htf1 htf4
  rw [pjoinL, hfil]
  rw [show (match [('/' :: renderSegs S), tf] with
      | [] => ['.']
      | ne => pnormalizeL (renderSegs ne))
      = pnormalizeL (renderSegs [('/' :: renderSegs S), tf]) from rfl]
  rw [hrender]
  exact pnormalizeL_abs hnorm hren_ne htrail

theorem pjoinL_root_seg {tf : List Char} (htf : cleanSegL tf) :
    pjoinL [['/'], tf] = '/' :: tf := by
  have htf1 : tf ≠ [] := htf.1
  have htf4 : ∀ c ∈ tf, c ≠ '/' := htf.2.2.2
  have hfil := filter_ne_2 (a := ['/']) (by simp) htf1
  have hrender : renderSegs [['/'], tf] = '/' :: '/' :: tf := by
    rw [renderSegs_cons _ (by simp : [tf] ≠ [])]
    simp [renderSegs]
  have hsplit : splitSlash ('/' :: '/' :: tf) = [] :: [] :: [tf] := by
    rw [splitSlash_cons_slash, splitSlash_cons_slash, splitSlash_noSlash htf4]
  have hnorm : normSegs false [] (splitSlash ('/' :: '/' :: tf)) = [tf] := by
    rw [hsplit, normSegs_nil_seg, normSegs_nil_seg,
      normSegs_clean _ (by intro s hs; simp at hs; subst hs; exact htf)]
  have htrail : hasTrailSlash ('/' :: '/' :: tf) = false := by
    have e : '/' :: '/' :: tf = ['/', '/'] ++ tf := by simp
    rw [e]
    exact hasTrailSlash_append_false _ htf1 htf4
  rw [pjoinL, hfil]
  rw [show (match [['/'], tf] with
      | [] => ['.']
      | ne => pnormalizeL (renderSegs ne))
      = pnormalizeL (renderSegs [['/'], tf]) from rfl]
  rw [hrender]
  have := pnormalizeL_abs (t := '/' :: tf) hnorm (by simp [renderSegs, htf1]) htrail
  rw [this]
  simp [renderSegs]

theorem pjoinL_abs_dot {R : List (List Char)} {td : List Char}
    (hR : ∀ s ∈ R, cleanSegL s) (htd : cleanSegL td) :
    pjoinL [('/' :: renderSegs R), td, ['.']] = '/' :: renderSegs (R ++ [td]) := by
  have htd1 : td ≠ [] := htd.1
  have htd4 : ∀ c ∈ td, c ≠ '/' := htd.2.2.2
  have hfil := filter_ne_3 (a := '/' :: renderSegs R) (by simp) htd1
    (by simp : (['.'] : List Char) ≠ [])
  have hrender : renderSegs [('/' :: renderSegs R), td, ['.']]
      = '/' :: (renderSegs R ++ '/' :: (td ++ '/' :: ['.'])) := by
    rw [renderSegs_cons _ (by simp : [td, ['.']] ≠ []),
      renderSegs_cons _ (by simp : [(['.'] : List Char)] ≠ [])]
    simp [renderSegs]
  have hsplit2 : splitSlash (td ++ '/' :: ['.']) = td :: [['.']] := by
    rw [splitSlash_append_seg htd4, splitSlash_noSlash (by simp : ∀ c ∈ ['.'], c ≠ '/')]
  have hclean : ∀ s ∈ R ++ [td], cleanSegL s := by
    apply clean_append hR
    intro s hs; simp at hs; subst hs; exact htd
  have hnorm : normSegs false [] (splitSlash ('/' :: (renderSegs R ++ '/' :: (td ++ '/' :: ['.']))))
      = R ++ [td] := by
    rw [splitSlash_cons_slash]
    cases hRe : R.isEmpty with
    | true =>
      have hRnil : R = [] := by simpa using hRe
      subst hRnil
      simp only [renderSegs, List.nil_append]
      rw [splitSlash_cons_slash, hsplit2, normSegs_nil_seg, normSegs_nil_seg]
      rw [show (td :: [['.']]) = [td] ++ [['.']] from rfl,
        normSegs_clean_append false _ (by intro s hs; simp at hs; subst hs; exact htd)]
      simp [normSegs_dot_seg, normSegs_done]
    | false =>
      have hRne : R ≠ [] := by intro hc; rw [hc] at hRe; simp at hRe
      rw [splitSlash_render_append (cleanSegL.noSlash hR) hRne, hsplit2]
      rw [normSegs_nil_seg]
      rw [show (R ++ td :: [['.']]) = (R ++ [td]) ++ [['.']] by simp,
        normSegs_clean_append false _ hclean]
      simp [normSegs_dot_seg, normSegs_done]
  have hren_ne : renderSegs (R ++ [td]) ≠ [] :=
    renderSegs_ne_nil_of_mem (by simp) htd1
  have htrail : hasTrailSlash ('/' :: (renderSegs R ++ '/' :: (td ++ '/' :: ['.']))) = false := by
    have e : '/' :: (renderSegs R ++ '/' :: (td ++ '/' :: ['.']))
        = ('/' :: (renderSegs R ++ '/' :: (td ++ ['/']))) ++ ['.'] := by simp
    rw [e]
    exact hasTrailSlash_append_false _ (by simp) (by simp)
  rw [pjoinL, hfil]
  rw [show (match [('/' :: renderSegs R), td, ['.']] with
      | [] => ['.']
      | ne => pnormalizeL (renderSegs ne))
      = pnormalizeL (renderSegs [('/' :: renderSegs R), td, ['.']]) from rfl]
  rw [hrender]
  exact pnormalizeL_abs hnorm hren_ne htrail

theorem pjoinL_abs_dir {R ss : List (List Char)} {td : List Char}
    (hR : ∀ s ∈ R, cleanSegL s) (htd : cleanSegL td)
    (hss : ∀ s ∈ ss, cleanSegL s) (hssne : ss ≠ []) :
    pjoinL [('/' :: renderSegs R), td, renderSegs ss] = '/' :: renderSegs (R ++ td :: ss) := by
  have htd1 : td ≠ [] := htd.1
  have htd4 : ∀ c ∈ td, c ≠ '/' := htd.2.2.2
  have hssren_ne : renderSegs ss ≠ [] := by
    cases ss with
    | nil => exact absurd rfl hssne
    | cons s0 S' => exact renderSegs_clean_head_ne_nil hss
  have hfil := filter_ne_3 (a := '/' :: renderSegs R) (by simp) htd1 hssren_ne
  have hrender : renderSegs [('/' :: renderSegs R), td, renderSegs ss]
      = '/' :: (renderSegs R ++ '/' :: (td ++ '/' :: renderSegs ss)) := by
    rw [renderSegs_cons _ (by simp : [td, renderSegs ss] ≠ []),
      renderSegs_cons _ (by simp : [renderSegs ss] ≠ [])]
    simp [renderSegs]
  have hsplit2 : splitSlash (td ++ '/' :: renderSegs ss) = td :: ss := by
    rw [splitSlash_append_seg htd4, splitSlash_render (cleanSegL.noSlash hss) hssne]
  have hclean : ∀ s ∈ R ++ td :: ss, cleanSegL s := by
    apply clean_append hR
    intro s hs
    rcases List.mem_cons.mp hs with rfl | hs
    · exact htd
    · exact hss s hs
  have hnorm : normSegs false [] (splitSlash ('/' :: (renderSegs R ++ '/' :: (td ++ '/' :: renderSegs ss))))
      = R ++ td :: ss := by
    rw [splitSlash_cons_slash]
    cases hRe : R.isEmpty with
    | true =>
      have hRnil : R = [] := by simpa using hRe
      subst hRnil
      simp only [renderSegs, List.nil_append]
      rw [splitSlash_cons_slash, hsplit2, normSegs_nil_seg, normSegs_nil_seg]
      exact normSegs_clean _ (by simpa using hclean)
    | false =>
      have hRne : R ≠ [] := by intro hc; rw [hc] at hRe; simp at hRe
      rw [splitSlash_render_append (cleanSegL.noSlash hR) hRne, hsplit2]
      rw [normSegs_nil_seg]
      exact normSegs_clean _ hclean
  have hren_ne : renderSegs (R ++ td :: ss) ≠ [] :=
    renderSegs_ne_nil_of_mem (by simp) htd1
  have htrail : hasTrailSlash ('/' :: (renderSegs R ++ '/' :: (td ++ '/' :: renderSegs ss))) = false := by
    obtain ⟨c, hc, hlast⟩ := getLast?_renderSegs_clean hss hssne
    have e : '/' :: (renderSegs R ++ '/' :: (td ++ '/' :: renderSegs ss))
        = ('/' :: (renderSegs R ++ '/' :: (td ++ ['/']))) ++ renderSegs ss := by simp
    rw [e]
    apply hasTrailSlash_eq_false_of _ hc
    rw [getLast?_append_ne hssren_ne]
    exact hlast
  rw [pjoinL, hfil]
  rw [show (match [('/' :: renderSegs R), td, renderSegs ss] with
      | [] => ['.']
      | ne => pnormalizeL (renderSegs ne))
      = pnormalizeL (renderSegs [('/' :: renderSegs R), td, renderSegs ss]) from rfl]
  rw [hrender]
  exact pnormalizeL_abs hnorm hren_ne htrail

theorem presolveSegs_absRender {S : List (List Char)} (hS : ∀ s ∈ S, cleanSegL s) :
    presolveSegs ('/' :: renderSegs S) = S := by
  cases hSe : S.isEmpty with
  | true =>
    have : S = [] := by simpa using hSe
    subst this
    rfl
  | false =>
    have hSne : S ≠ [] := by intro hc; rw [hc] at hSe; simp at hSe
    unfold presolveSegs
    rw [splitSlash_cons_slash, splitSlash_render (cleanSegL.noSlash hS) hSne,
      normSegs_nil_seg, normSegs_clean _ hS]

theorem presolveSegs_relRender {S : List (List Char)} (hS : ∀ s ∈ S, cleanSegL s)
    (hne : S ≠ []) : presolveSegs (renderSegs S) = S := by
  unfold presolveSegs
  rw [splitSlash_render (cleanSegL.noSlash hS) hne, normSegs_clean _ hS]

theorem prelativeL_abs_append {R X : List (List Char)}
    (hR : ∀ s ∈ R, cleanSegL s) (hX : ∀ s ∈ R ++ X, cleanSegL s) :
    prelativeL ('/' :: renderSegs R) ('/' :: renderSegs (R ++ X)) = renderSegs X := by
  unfold prelativeL
  rw [presolveSegs_absRender hR, presolveSegs_absRender hX]
  have hdc : dropCommon R (R ++ X) = ([], X) := by
    have h1 := dropCommon_append R [] X
    rw [List.append_nil] at h1
    rw [h1, dropCommon_nil_left]
  rw [hdc]
  simp

theorem prelativeL_rel_ne {A B : List (List Char)} {a0 b0 : List Char}
    (hA : ∀ s ∈ a0 :: A, cleanSegL s) (hB : ∀ s ∈ b0 :: B, cleanSegL s)
    (hne : a0 ≠ b0) :
    prelativeL (renderSegs (a0 :: A)) (renderSegs (b0 :: B))
      = renderSegs (List.replicate (A.length + 1) ['.', '.'] ++ b0 :: B) := by
  unfold prelativeL
  rw [presolveSegs_relRender hA (by simp), presolveSegs_relRender hB (by simp)]
  rw [dropCommon_cons_ne hne]
  simp

theorem renderSegs_clean_ne_nil {S : List (List Char)} (h : ∀ s ∈ S, cleanSegL s)
    (hne : S ≠ []) : renderSegs S ≠ [] := by
  cases S with
  | nil => exact absurd rfl hne
  | cons s0 S' => exact renderSegs_clean_head_ne_nil h

theorem clean_cons {s : List Char} {S : List (List Char)} (hs : cleanSegL s)
    (hS : ∀ x ∈ S, cleanSegL x) : ∀ x ∈ s :: S, cleanSegL x := by
  intro x hx
  rcases List.mem_cons.mp hx with rfl | hx
  · exact hs
  · exact hS x hx

/-- The test-path computation of `calculateTestFileInfoForLib` at the
character-list level: for a workspace root `/R`, a path under lib of
shape `ds/fnL`, the test path is `/R/test/ds/<sfn>_test<ext>`. -/
theorem testPathL_eq (R ds : List (List Char)) (fnL sfn ext : List Char)
    (hR : ∀ s ∈ R, cleanSegL s) (hds : ∀ s ∈ ds, cleanSegL s)
    (hfnL : ∀ c ∈ fnL, c ≠ '/') (hfne : fnL ≠ [])
    (hsfn : ∀ c ∈ sfn, c ≠ '/') (hext : ∀ c ∈ ext, c ≠ '/') :
    pjoinL [pjoinL ['/' :: renderSegs R, ['t', 'e', 's', 't'],
        pdirnameL (renderSegs (ds ++ [fnL]))], sfn ++ ['_', 't', 'e', 's', 't'] ++ ext]
      = '/' :: renderSegs ((R ++ ['t', 'e', 's', 't'] :: ds)
          ++ [sfn ++ ['_', 't', 'e', 's', 't'] ++ ext]) := by
  have htd : cleanSegL ['t', 'e', 's', 't'] := by
    refine ⟨by simp, by simp, by simp, ?_⟩
    decide
  have htf : cleanSegL (sfn ++ ['_', 't', 'e', 's', 't'] ++ ext) :=
    cleanSegL_testName hsfn hext
  rcases eq_or_ne ds [] with rfl | hdsne
  · have hdir : pdirnameL (renderSegs ([] ++ [fnL])) = ['.'] := pdirnameL_noSlash hfnL
    rw [hdir, pjoinL_abs_dot hR htd,
      pjoinL_abs_seg (clean_append hR (by intro s hs; simp at hs; subst hs; exact htd))
        (by simp) htf]
  · have hdir : pdirnameL (renderSegs (ds ++ [fnL])) = renderSegs ds := by
      rw [renderSegs_append_single ds fnL hdsne]
      exact pdirnameL_append (renderSegs_clean_ne_nil hds hdsne)
        (renderSegs_ne_slash hds) hfne hfnL
    rw [hdir, pjoinL_abs_dir hR htd hds hdsne,
      pjoinL_abs_seg (clean_append hR (clean_cons htd hds)) (by simp) htf]

/-- C-claim support: the general test path of the lib branch, at the
string level.  The source path and package name are irrelevant to the
test path. -/
theorem calcLib_testPath (R ds : List (List Char)) (fnL sfn ext : List Char)
    (src : String) (pn : Option String)
    (hR : ∀ s ∈ R, cleanSegL s) (hds : ∀ s ∈ ds, cleanSegL s)
    (hfnL : ∀ c ∈ fnL, c ≠ '/') (hfne : fnL ≠ [])
    (hsfn : ∀ c ∈ sfn, c ≠ '/') (hext : ∀ c ∈ ext, c ≠ '/') :
    (calculateTestFileInfoForLib (String.mk ('/' :: renderSegs R)) src
        ("lib/" ++ String.mk (renderSegs (ds ++ [fnL])))
        (String.mk sfn) (String.mk ext) pn).testPath
      = String.mk ('/' :: renderSegs ((R ++ ['t', 'e', 's', 't'] :: ds)
          ++ [sfn ++ ['_', 't', 'e', 's', 't'] ++ ext])) := by
  apply strExt
  show pjoinL [pjoinL ['/' :: renderSegs R, ['t', 'e', 's', 't'],
      pdirnameL (renderSegs (ds ++ [fnL]))], sfn ++ ['_', 't', 'e', 's', 't'] ++ ext]
    = '/' :: renderSegs ((R ++ ['t', 'e', 's', 't'] :: ds)
        ++ [sfn ++ ['_', 't', 'e', 's', 't'] ++ ext])
  exact testPathL_eq R ds fnL sfn ext hR hds hfnL hfne hsfn hext

set_option maxHeartbeats 2000000 in
/-- C-claim support: the general fallback import path of the lib branch
(no package name): relative from `test/ds/` up `ds.length + 1` levels and
back down into `lib/ds/fnL`. -/
theorem calcLib_importPath_none (R ds : List (List Char)) (fnL sfn ext : List Char)
    (hR : ∀ s ∈ R, cleanSegL s) (hds : ∀ s ∈ ds, cleanSegL s)
    (hfnL : cleanSegL fnL)
    (hsfn : ∀ c ∈ sfn, c ≠ '/') (hext : ∀ c ∈ ext, c ≠ '/') :
    (calculateTestFileInfoForLib (String.mk ('/' :: renderSegs R))
        (String.mk ('/' :: renderSegs (R ++ ['l', 'i', 'b'] :: (ds ++ [fnL]))))
        ("lib/" ++ String.mk (renderSegs (ds ++ [fnL])))
        (String.mk sfn) (String.mk ext) none).importPath
      = String.mk (renderSegs (List.replicate (ds.length + 1) ['.', '.']
          ++ ['l', 'i', 'b'] :: (ds ++ [fnL]))) := by
  have htd : cleanSegL ['t', 'e', 's', 't'] := by
    refine ⟨by simp, by simp, by simp, ?_⟩
    decide
  have hlib : cleanSegL ['l', 'i', 'b'] := by
    refine ⟨by simp, by simp, by simp, ?_⟩
    decide
  have htf : cleanSegL (sfn ++ ['_', 't', 'e', 's', 't'] ++ ext) :=
    cleanSegL_testName hsfn hext
  apply strExt
  show renderSegs (splitSlash (prelativeL
      (pdirnameL (prelativeL ('/' :: renderSegs R)
        (pjoinL [pjoinL ['/' :: renderSegs R, ['t', 'e', 's', 't'],
            pdirnameL (renderSegs (ds ++ [fnL]))],
          sfn ++ ['_', 't', 'e', 's', 't'] ++ ext])))
      (prelativeL ('/' :: renderSegs R)
        ('/' :: renderSegs (R ++ ['l', 'i', 'b'] :: (ds ++ [fnL]))))))
    = renderSegs (List.replicate (ds.length + 1) ['.', '.']
        ++ ['l', 'i', 'b'] :: (ds ++ [fnL]))
  rw [testPathL_eq R ds fnL sfn ext hR hds hfnL.2.2.2 hfnL.1 hsfn hext]
  have hXclean : ∀ s ∈ ['t', 'e', 's', 't'] :: (ds ++ [sfn ++ ['_', 't', 'e', 's', 't'] ++ ext]),
      cleanSegL s :=
    clean_cons htd (clean_append hds
      (by intro s hs; rw [List.mem_singleton] at hs; subst hs; exact htf))
  have hYclean : ∀ s ∈ ['l', 'i', 'b'] :: (ds ++ [fnL]), cleanSegL s :=
    clean_cons hlib (clean_append hds (by intro s hs; simp at hs; subst hs; exact hfnL))
  have e1 : (R ++ ['t', 'e', 's', 't'] :: ds) ++ [sfn ++ ['_', 't', 'e', 's', 't'] ++ ext]
      = R ++ ['t', 'e', 's', 't'] :: (ds ++ [sfn ++ ['_', 't', 'e', 's', 't'] ++ ext]) := by
    simp
  rw [e1, prelativeL_abs_append hR (clean_append hR hXclean),
    prelativeL_abs_append hR (clean_append hR hYclean)]
  have e2 : renderSegs (['t', 'e', 's', 't'] :: (ds ++ [sfn ++ ['_', 't', 'e', 's', 't'] ++ ext]))
      = renderSegs ((['t', 'e', 's', 't'] :: ds) ++ [sfn ++ ['_', 't', 'e', 's', 't'] ++ ext]) := by
    simp
  have hdir2 : pdirnameL (renderSegs (['t', 'e', 's', 't'] :: (ds ++ [sfn ++ ['_', 't', 'e', 's', 't'] ++ ext])))
      = renderSegs (['t', 'e', 's', 't'] :: ds) := by
    rw [e2, renderSegs_append_single _ _ (by simp)]
    exact pdirnameL_append (renderSegs_clean_head_ne_nil (clean_cons htd hds))
      (renderSegs_ne_slash (clean_cons htd hds)) htf.1 htf.2.2.2
  rw [hdir2,
    prelativeL_rel_ne (clean_cons htd hds) hYclean (by decide),
    renderSegs_splitSlash]

/-- C-claim support: the general non-lib derivation, at the string
level: the test file sits next to the source and the import is the
same-directory reference. -/
theorem calcNonLib_general (R : List (List Char)) (f sfn ext : List Char)
    (hR : ∀ s ∈ R, cleanSegL s) (hf : f ≠ []) (hfs : ∀ c ∈ f, c ≠ '/')
    (hsfn : ∀ c ∈ sfn, c ≠ '/') (hext : ∀ c ∈ ext, c ≠ '/') :
    calculateTestFileInfoForNonLib (String.mk ('/' :: renderSegs (R ++ [f])))
        (String.mk sfn) (String.mk ext)
      = { testPath := String.mk ('/' :: renderSegs (R ++ [sfn ++ ['_', 't', 'e', 's', 't'] ++ ext])),
          importPath := "./" ++ String.mk sfn ++ String.mk ext } := by
  have htf : cleanSegL (sfn ++ ['_', 't', 'e', 's', 't'] ++ ext) :=
    cleanSegL_testName hsfn hext
  have htest : (calculateTestFileInfoForNonLib (String.mk ('/' :: renderSegs (R ++ [f])))
      (String.mk sfn) (String.mk ext)).testPath
      = String.mk ('/' :: renderSegs (R ++ [sfn ++ ['_', 't', 'e', 's', 't'] ++ ext])) := by
    apply strExt
    show pjoinL [pdirnameL ('/' :: renderSegs (R ++ [f])),
        sfn ++ ['_', 't', 'e', 's', 't'] ++ ext]
      = '/' :: renderSegs (R ++ [sfn ++ ['_', 't', 'e', 's', 't'] ++ ext])
    rcases eq_or_ne R [] with rfl | hRne
    · have hdir : pdirnameL ('/' :: renderSegs ([] ++ [f])) = ['/'] := pdirnameL_root hf hfs
      rw [hdir, pjoinL_root_seg htf]
      simp [renderSegs]
    · have hdir : pdirnameL ('/' :: renderSegs (R ++ [f])) = '/' :: renderSegs R := by
        rw [renderSegs_append_single R f hRne]
        rw [show '/' :: (renderSegs R ++ '/' :: f) = ('/' :: renderSegs R) ++ '/' :: f from rfl]
        refine pdirnameL_append (by simp) ?_ hf hfs
        intro hc
        exact renderSegs_clean_ne_nil hR hRne (by simpa using hc)
      rw [hdir, pjoinL_abs_seg hR hRne htf]
  rw [← htest]
  rfl

/-! ### Lemmas about the class-declaration matcher -/

theorem idStart_not_space {c : Char} (h : isIdStart c = true) : isJsSpace c = false := by
  by_contra hc
  have hs : isJsSpace c = true := by simpa using hc
  simp only [isIdStart, Bool.or_eq_true, Bool.and_eq_true, decide_eq_true_eq,
    beq_iff_eq] at h
  simp only [isJsSpace, Bool.or_eq_true, Bool.and_eq_true, decide_eq_true_eq,
    beq_iff_eq] at hs
  omega

theorem idChar_not_space {c : Char} (h : isIdChar c = true) : isJsSpace c = false := by
  by_contra hc
  have hs : isJsSpace c = true := by simpa using hc
  simp only [isIdChar, isIdStart, Bool.or_eq_true, Bool.and_eq_true, decide_eq_true_eq,
    beq_iff_eq] at h
  simp only [isJsSpace, Bool.or_eq_true, Bool.and_eq_true, decide_eq_true_eq,
    beq_iff_eq] at hs
  omega

theorem stripPref_append (p t : List Char) : stripPref p (p ++ t) = some t := by
  induction p with
  | nil => rfl
  | cons c cs ih => simp [stripPref, ih]

theorem stripPref_some {p : List Char} : ∀ {l r : List Char},
    stripPref p l = some r → l = p ++ r := by
  induction p with
  | nil =>
    intro l r h
    simp only [stripPref, Option.some.injEq] at h
    simp [h]
  | cons c cs ih =>
    intro l r h
    cases l with
    | nil => simp [stripPref] at h
    | cons d ds =>
      by_cases hc : c = d
      · subst hc
        simp only [stripPref, if_pos rfl] at h
        rw [ih h]
        rfl
      · simp [stripPref, hc] at h

theorem dropWhile_head_false {p : Char → Bool} : ∀ {l : List Char} {y : Char} {ys : List Char},
    l.dropWhile p = y :: ys → p y = false := by
  intro l
  induction l with
  | nil => intro y ys h; simp [List.dropWhile] at h
  | cons a as ih =>
    intro y ys h
    by_cases ha : p a
    · rw [List.dropWhile_cons_of_pos ha] at h
      exact ih h
    · rw [List.dropWhile_cons_of_neg ha] at h
      injection h with h1 h2
      subst h1
      simpa using ha

theorem length_dropWhile_le' (p : Char → Bool) (l : List Char) :
    (l.dropWhile p).length ≤ l.length :=
  (List.dropWhile_sublist p).length_le

theorem tryMods_shrink {ms : List (List Char)} : ∀ {l r : List Char},
    tryMods ms l = some r → r.length < l.length := by
  induction ms with
  | nil => intro l r h; simp [tryMods] at h
  | cons m ms ih =>
    intro l r h
    rw [tryMods] at h
    cases hs : stripPref m l with
    | none => simp only [hs] at h; exact ih h
    | some s =>
      cases s with
      | nil => simp only [hs] at h; exact ih h
      | cons c cs =>
        simp only [hs] at h
        by_cases hc : isJsSpace c
        · rw [if_pos hc] at h
          injection h with h1
          have hl : l = m ++ c :: cs := stripPref_some hs
          have h2 : ((c :: cs).dropWhile isJsSpace).length ≤ cs.length := by
            rw [List.dropWhile_cons_of_pos hc]
            exact length_dropWhile_le' _ _
          have h3 : l.length = m.length + cs.length + 1 := by simp [hl]; omega
          rw [← h1] at *
          omega
        · rw [if_neg hc] at h
          exact ih h

theorem tryMods_spec {ms : List (List Char)} : ∀ {l r : List Char},
    tryMods ms l = some r → ∃ m w, m ∈ ms ∧ jsWsRun w ∧ l = m ++ w ++ r := by
  induction ms with
  | nil => intro l r h; simp [tryMods] at h
  | cons m ms ih =>
    intro l r h
    rw [tryMods] at h
    cases hs : stripPref m l with
    | none =>
      simp only [hs] at h
      obtain ⟨m', w, hm, hw, he⟩ := ih h
      exact ⟨m', w, by simp [hm], hw, he⟩
    | some s =>
      cases s with
      | nil =>
        simp only [hs] at h
        obtain ⟨m', w, hm, hw, he⟩ := ih h
        exact ⟨m', w, by simp [hm], hw, he⟩
      | cons c cs =>
        simp only [hs] at h
        by_cases hc : isJsSpace c
        · rw [if_pos hc] at h
          injection h with h1
          have hl : l = m ++ c :: cs := stripPref_some hs
          refine ⟨m, (c :: cs).takeWhile isJsSpace, by simp, ⟨?_, ?_⟩, ?_⟩
          · rw [List.takeWhile_cons_of_pos hc]; simp
          · intro x hx; exact List.mem_takeWhile_imp hx
          · rw [hl, ← h1, List.append_assoc, List.takeWhile_append_dropWhile]
        · rw [if_neg hc] at h
          obtain ⟨m', w, hm, hw, he⟩ := ih h
          exact ⟨m', w, by simp [hm], hw, he⟩

theorem tryMods_none_class (t : List Char) : tryMods dartModifiers ('c' :: t) = none := by
  simp [tryMods, dartModifiers, stripPref]

theorem tryMods_chain_step {m w : List Char} (hm : m ∈ dartModifiers) (hw : jsWsRun w)
    {r0 : Char} {rest : List Char} (hr0 : isJsSpace r0 = false) :
    tryMods dartModifiers (m ++ w ++ r0 :: rest) = some (r0 :: rest) := by
  obtain ⟨hwne, hws⟩ := hw
  cases w with
  | nil => exact absurd rfl hwne
  | cons w0 w' =>
    have hw0 : isJsSpace w0 = true := hws w0 (by simp)
    have hdrop2 : (w0 :: (w' ++ r0 :: rest)).dropWhile isJsSpace = r0 :: rest := by
      rw [List.dropWhile_cons_of_pos hw0,
        List.dropWhile_append_of_pos (by intro a ha; exact hws a (by simp [ha])),
        List.dropWhile_cons_of_neg (by simp [hr0])]
    fin_cases hm <;>
      simp [tryMods, dartModifiers, stripPref, hw0, hdrop2]

theorem mods_len_pos : ∀ m ∈ dartModifiers, 1 ≤ m.length := by decide

theorem munchF_spec : ∀ (n : Nat) (l : List Char), l.length ≤ n →
    ∃ mods, ModsChain mods ∧ l = mods ++ munchModsF n l := by
  intro n
  induction n with
  | zero => intro l h; exact ⟨[], ModsChain.nil, by simp [munchModsF]⟩
  | succ n ih =>
    intro l h
    cases ht : tryMods dartModifiers l with
    | none => exact ⟨[], ModsChain.nil, by simp [munchModsF, ht]⟩
    | some r =>
      obtain ⟨m, w, hm, hw, he⟩ := tryMods_spec ht
      have hlt := tryMods_shrink ht
      obtain ⟨mods', hchain, hr⟩ := ih r (by omega)
      refine ⟨m ++ w ++ mods', ModsChain.cons m w mods' hm hw hchain, ?_⟩
      have hmf : munchModsF (n + 1) l = munchModsF n r := by simp [munchModsF, ht]
      rw [hmf, he]
      conv_lhs => rw [hr]
      simp [List.append_assoc]

theorem chain_head_not_space {mods : List Char} (h : ModsChain mods) (t : List Char) :
    ∃ r0 tail, mods ++ 'c' :: t = r0 :: tail ∧ isJsSpace r0 = false := by
  cases h with
  | nil => exact ⟨'c', t, rfl, by decide⟩
  | cons m w rest hm hw hrest =>
    fin_cases hm <;> exact ⟨_, _, rfl, by decide⟩

theorem munch_eats {mods : List Char} (h : ModsChain mods) :
    ∀ (n : Nat) (t : List Char), (mods ++ 'c' :: t).length ≤ n →
      munchModsF n (mods ++ 'c' :: t) = 'c' :: t := by
  induction h with
  | nil =>
    intro n t h
    cases n with
    | zero => simp at h
    | succ n => simp [munchModsF, tryMods_none_class]
  | cons m w rest hm hw hrest ih =>
    intro n t hlen
    obtain ⟨r0, tail, he, hr0⟩ := chain_head_not_space hrest t
    have hlist : (m ++ w ++ rest) ++ 'c' :: t = m ++ w ++ (r0 :: tail) := by
      rw [← he]; simp [List.append_assoc]
    cases n with
    | zero =>
      exfalso
      have h1 : 0 < ((m ++ w ++ rest) ++ 'c' :: t).length := by simp
      omega
    | succ n =>
      rw [hlist]
      have hstep : munchModsF (n + 1) (m ++ w ++ r0 :: tail) = munchModsF n (r0 :: tail) := by
        rw [munchModsF, tryMods_chain_step hm hw hr0]
      rw [hstep, ← he]
      apply ih
      have h1 : ((m ++ w ++ rest) ++ 'c' :: t).length
          = m.length + w.length + (rest ++ 'c' :: t).length := by
        simp [List.length_append]
        omega
      have h2 := mods_len_pos m hm
      omega

theorem matchClassName_sound {l nm : List Char} (h : matchClassName l = some nm) :
    specClassLine l nm := by
  unfold matchClassName at h
  obtain ⟨mods, hchain, hmods⟩ :=
    munchF_spec (l.dropWhile isJsSpace).length (l.dropWhile isJsSpace) le_rfl
  cases hs : stripPref kwClass (munchMods (l.dropWhile isJsSpace)) with
  | none => simp only [hs] at h; exact absurd h (by simp)
  | some r =>
    cases r with
    | nil => simp only [hs] at h; exact absurd h (by simp)
    | cons c cs =>
      simp only [hs] at h
      by_cases hc : isJsSpace c
      · rw [if_pos hc] at h
        cases hd : (c :: cs).dropWhile isJsSpace with
        | nil => simp only [hd] at h; exact absurd h (by simp)
        | cons d ds =>
          simp only [hd] at h
          by_cases hid : isIdStart d
          · rw [if_pos hid] at h
            injection h with hnm
            refine ⟨l.takeWhile isJsSpace, mods, (c :: cs).takeWhile isJsSpace,
              ds.dropWhile isIdChar, ?_, hchain, ⟨?_, ?_⟩, ?_, ?_, ?_⟩
            · intro x hx; exact List.mem_takeWhile_imp hx
            · rw [List.takeWhile_cons_of_pos hc]; simp
            · intro x hx; exact List.mem_takeWhile_imp hx
            · rw [← hnm]; exact ⟨hid, fun x hx => List.mem_takeWhile_imp hx⟩
            · cases hrest : ds.dropWhile isIdChar with
              | nil => exact Or.inl rfl
              | cons y ys => exact Or.inr ⟨y, ys, rfl, dropWhile_head_false hrest⟩
            · rw [← hnm]
              have e1 : (d :: ds.takeWhile isIdChar) ++ ds.dropWhile isIdChar = d :: ds := by
                simp [List.takeWhile_append_dropWhile]
              have e2 : (c :: cs).takeWhile isJsSpace ++ d :: ds = c :: cs := by
                rw [← hd, List.takeWhile_append_dropWhile]
              have e3 : munchMods (l.dropWhile isJsSpace) = kwClass ++ c :: cs :=
                stripPref_some hs
              have hmods2 : l.dropWhile isJsSpace
                  = mods ++ munchMods (l.dropWhile isJsSpace) := hmods
              conv_lhs => rw [← List.takeWhile_append_dropWhile (p := isJsSpace) (l := l),
                hmods2, e3, ← e2, ← e1]
              simp [List.append_assoc]
          · rw [if_neg hid] at h
            simp at h
      · rw [if_neg hc] at h
        simp at h

theorem matchClassName_complete {l nm : List Char} (h : specClassLine l nm) :
    matchClassName l = some nm := by
  obtain ⟨w0, mods, wc, rest, hw0, hchain, hwc, hnm, hrest, rfl⟩ := h
  obtain ⟨hwcne, hwcs⟩ := hwc
  cases nm with
  | nil => exact absurd hnm (by simp [identTok])
  | cons d ns =>
  obtain ⟨hid, hns⟩ := hnm
  cases wc with
  | nil => exact absurd rfl hwcne
  | cons wc0 wc' =>
  have hw0' : isJsSpace wc0 = true := hwcs wc0 (by simp)
  have el : w0 ++ mods ++ kwClass ++ (wc0 :: wc') ++ (d :: ns) ++ rest
      = w0 ++ (mods ++ 'c' :: (['l', 'a', 's', 's'] ++ (wc0 :: (wc' ++ ((d :: ns) ++ rest))))) := by
    simp [kwClass, List.append_assoc]
  unfold matchClassName
  rw [el]
  obtain ⟨r0, tail, he, hr0⟩ :=
    chain_head_not_space hchain (['l', 'a', 's', 's'] ++ (wc0 :: (wc' ++ ((d :: ns) ++ rest))))
  have hdw : (w0 ++ (mods ++ 'c' :: (['l', 'a', 's', 's'] ++ (wc0 :: (wc' ++ ((d :: ns) ++ rest)))))).dropWhile isJsSpace
      = mods ++ 'c' :: (['l', 'a', 's', 's'] ++ (wc0 :: (wc' ++ ((d :: ns) ++ rest)))) := by
    rw [List.dropWhile_append_of_pos hw0, he]
    exact List.dropWhile_cons_of_neg (by simp [hr0])
  rw [hdw]
  have hmm : munchMods (mods ++ 'c' :: (['l', 'a', 's', 's'] ++ (wc0 :: (wc' ++ ((d :: ns) ++ rest)))))
      = 'c' :: (['l', 'a', 's', 's'] ++ (wc0 :: (wc' ++ ((d :: ns) ++ rest)))) :=
    munch_eats hchain _ _ le_rfl
  rw [hmm]
  rw [show ('c' :: (['l', 'a', 's', 's'] ++ (wc0 :: (wc' ++ ((d :: ns) ++ rest)))))
      = kwClass ++ (wc0 :: (wc' ++ ((d :: ns) ++ rest))) from rfl]
  rw [stripPref_append kwClass (wc0 :: (wc' ++ ((d :: ns) ++ rest)))]
  have hdrop3 : (wc0 :: (wc' ++ ((d :: ns) ++ rest))).dropWhile isJsSpace
      = d :: (ns ++ rest) := by
    rw [List.dropWhile_cons_of_pos hw0',
      List.dropWhile_append_of_pos (by intro a ha; exact hwcs a (by simp [ha]))]
    rw [show ((d :: ns) ++ rest) = d :: (ns ++ rest) from rfl]
    exact List.dropWhile_cons_of_neg (by simp [idStart_not_space hid])
  have htake : (ns ++ rest).takeWhile isIdChar = ns := by
    rw [List.takeWhile_append_of_pos hns]
    rcases hrest with rfl | ⟨y, ys, rfl, hy⟩
    · simp
    · rw [List.takeWhile_cons_of_neg (by simp [hy])]
      simp
  show (if isJsSpace wc0 = true then
      (match (wc0 :: (wc' ++ ((d :: ns) ++ rest))).dropWhile isJsSpace with
        | e :: es => if isIdStart e = true then some (e :: es.takeWhile isIdChar) else none
        | [] => none)
    else none) = some (d :: ns)
  rw [if_pos hw0', hdrop3]
  show (if isIdStart d = true then some (d :: (ns ++ rest).takeWhile isIdChar) else none)
    = some (d :: ns)
  rw [if_pos hid, htake]

/-! ### Lemmas about the pubspec name scan -/

theorem term_not_pkgChar {c : Char} (h : isLineTerm c = true) : isPkgChar c = false := by
  by_contra hc
  have hp : isPkgChar c = true := by simpa using hc
  simp only [isLineTerm, Bool.or_eq_true, beq_iff_eq] at h
  simp only [isPkgChar, isPkgStart, Bool.or_eq_true, Bool.and_eq_true, decide_eq_true_eq,
    beq_iff_eq] at hp
  omega

theorem pkgStart_not_space {c : Char} (h : isPkgStart c = true) : isJsSpace c = false := by
  by_contra hc
  have hs : isJsSpace c = true := by simpa using hc
  simp only [isPkgStart, Bool.or_eq_true, Bool.and_eq_true, decide_eq_true_eq,
    beq_iff_eq] at h
  simp only [isJsSpace, Bool.or_eq_true, Bool.and_eq_true, decide_eq_true_eq,
    beq_iff_eq] at hs
  omega

theorem stripPref_append_of {p l r : List Char} (h : stripPref p l = some r) (d : List Char) :
    stripPref p (l ++ d) = some (r ++ d) := by
  rw [stripPref_some h, List.append_assoc]
  exact stripPref_append p (r ++ d)

theorem dropWhile_append_ne {p : Char → Bool} {a : List Char} (h : a.dropWhile p ≠ [])
    (b : List Char) : (a ++ b).dropWhile p = a.dropWhile p ++ b := by
  rw [List.dropWhile_append, if_neg]
  simp [isEmpty_false_of_ne h]

theorem endsOk_append_ws {u : List Char} (hu : ∀ c ∈ u, isJsSpace c = true) :
    ∀ {v : List Char}, endsOk v = true → endsOk (u ++ v) = true := by
  induction u with
  | nil => intro v hv; simpa using hv
  | cons c u' ih =>
    intro v hv
    rw [List.cons_append, endsOk]
    by_cases ht : isLineTerm c
    · rw [if_pos ht]
    · rw [if_neg ht, if_pos (hu c (by simp))]
      exact ih (fun x hx => hu x (by simp [hx])) hv

theorem endsOk_term {t : Char} (h : isLineTerm t = true) (x : List Char) :
    endsOk (t :: x) = true := by
  rw [endsOk, if_pos h]

theorem matchNameAt_extend {line D : List Char}
    (hD : D = [] ∨ ∃ t ts, D = t :: ts ∧ isLineTerm t = true)
    (h : lineIsNameDecl line = true) :
    (matchNameAt (line ++ D)).isSome = true := by
  unfold lineIsNameDecl at h
  cases hs : stripPref kwNameColon line with
  | none => simp only [hs] at h; exact absurd h (by simp)
  | some r =>
    simp only [hs] at h
    cases hd : r.dropWhile isJsSpace with
    | nil => simp only [hd] at h; exact absurd h (by simp)
    | cons c cs =>
      simp only [hd] at h
      rw [Bool.and_eq_true] at h
      obtain ⟨hpk, hall⟩ := h
      have hallws : ∀ x ∈ cs.dropWhile isPkgChar, isJsSpace x = true := by
        intro x hx
        exact List.all_eq_true.mp hall x hx
      have hendD : endsOk D = true := by
        rcases hD with rfl | ⟨t, ts, rfl, ht⟩
        · rfl
        · exact endsOk_term ht ts
      have hs2 : stripPref kwNameColon (line ++ D) = some (r ++ D) := stripPref_append_of hs D
      have hdropne : r.dropWhile isJsSpace ≠ [] := by rw [hd]; simp
      have hd2 : (r ++ D).dropWhile isJsSpace = c :: (cs ++ D) := by
        rw [dropWhile_append_ne hdropne, hd]
        rfl
      have hend2 : endsOk ((cs ++ D).dropWhile isPkgChar) = true := by
        cases hcs2 : cs.dropWhile isPkgChar with
        | nil =>
          have hcsall : ∀ x ∈ cs, isPkgChar x = true := List.dropWhile_eq_nil_iff.mp hcs2
          rw [List.dropWhile_append_of_pos hcsall]
          rcases hD with rfl | ⟨t, ts, rfl, ht⟩
          · rfl
          · rw [List.dropWhile_cons_of_neg (by simp [term_not_pkgChar ht])]
            exact endsOk_term ht ts
        | cons y ys =>
          rw [dropWhile_append_ne (by rw [hcs2]; simp) D, hcs2]
          rw [show (y :: ys) ++ D = y :: (ys ++ D) from rfl]
          have hally : ∀ x ∈ y :: ys, isJsSpace x = true := by
            intro x hx
            exact hallws x (by rw [hcs2]; exact hx)
          exact endsOk_append_ws hally hendD
      simp only [matchNameAt, hs2, hd2, if_pos hpk, hend2, if_pos rfl]
      simp

theorem scanName_skip : ∀ (u : List Char) {t : Char}, isLineTerm t = true →
    ∀ {rest : List Char} (b : Bool), (scanName true rest).isSome = true →
      (scanName b (u ++ t :: rest)).isSome = true := by
  intro u
  induction u with
  | nil =>
    intro t ht rest b hrec
    rw [List.nil_append, scanName]
    cases b with
    | false => simpa [ht] using hrec
    | true =>
      simp only [if_pos rfl]
      cases hm : matchNameAt (t :: rest) with
      | some s => simp
      | none => simpa [ht] using hrec
  | cons c u' ih =>
    intro t ht rest b hrec
    rw [List.cons_append, scanName]
    cases b with
    | false => exact ih ht (isLineTerm c) hrec
    | true =>
      simp only [if_pos rfl]
      cases hm : matchNameAt (c :: (u' ++ t :: rest)) with
      | some s => simp
      | none => exact ih ht (isLineTerm c) hrec

theorem splitLinesGo_eq : ∀ (l cur : List Char),
    splitLinesGo cur l = (cur.reverse ++ l.takeWhile (fun c => !isLineTerm c)) :: splitTail l := by
  intro l
  induction l with
  | nil => intro cur; simp [splitLinesGo, splitTail]
  | cons c rest ih =>
    intro cur
    by_cases hc : isLineTerm c
    · rw [splitLinesGo, if_pos hc]
      rw [List.takeWhile_cons_of_neg (by simp [hc])]
      rw [splitTail]
      rw [List.dropWhile_cons_of_neg (by simp [hc])]
      simp
    · rw [splitLinesGo, if_neg hc, ih (c :: cur)]
      rw [List.takeWhile_cons_of_pos (by simp [hc])]
      have hsp : splitTail (c :: rest) = splitTail rest := by
        rw [splitTail, splitTail, List.dropWhile_cons_of_pos (by simp [hc])]
      rw [hsp]
      simp

theorem findName_aux : ∀ (n : Nat) (l : List Char), l.length ≤ n →
    (splitLines l).any lineIsNameDecl = true → (scanName true l).isSome = true := by
  intro n
  induction n with
  | zero =>
    intro l hl h
    have hnil : l = [] := List.eq_nil_of_length_eq_zero (by omega)
    subst hnil
    simp [splitLines, splitLinesGo, lineIsNameDecl, stripPref, kwNameColon] at h
  | succ n ih =>
    intro l hl h
    rw [splitLines, splitLinesGo_eq l []] at h
    simp only [List.reverse_nil, List.nil_append, List.any_cons, Bool.or_eq_true] at h
    rcases h with hfirst | htail
    · have hfl : l.takeWhile (fun c => !isLineTerm c) ++ l.dropWhile (fun c => !isLineTerm c)
          = l := List.takeWhile_append_dropWhile _ l
      have hD : l.dropWhile (fun c => !isLineTerm c) = []
          ∨ ∃ t ts, l.dropWhile (fun c => !isLineTerm c) = t :: ts ∧ isLineTerm t = true := by
        cases hdt : l.dropWhile (fun c => !isLineTerm c) with
        | nil => exact Or.inl rfl
        | cons t ts =>
          refine Or.inr ⟨t, ts, rfl, ?_⟩
          have := dropWhile_head_false hdt
          simpa using this
      have hsome : (matchNameAt l).isSome = true := by
        rw [← hfl]
        apply matchNameAt_extend _ hfirst
        rcases hD with h1 | ⟨t, ts, h1, ht⟩
        · exact Or.inl h1
        · exact Or.inr ⟨t, ts, h1, ht⟩
      cases l with
      | nil => simp [matchNameAt, stripPref, kwNameColon] at hsome
      | cons c rest =>
        rw [scanName, if_pos rfl]
        cases hm : matchNameAt (c :: rest) with
        | some s => simp
        | none => rw [hm] at hsome; simp at hsome
    · cases hdt : l.dropWhile (fun c => !isLineTerm c) with
      | nil =>
        rw [splitTail, hdt] at htail
        simp at htail
      | cons t rest =>
        have hterm : isLineTerm t = true := by
          have := dropWhile_head_false hdt
          simpa using this
        rw [splitTail, hdt] at htail
        have hlen : rest.length ≤ n := by
          have hsub : (l.dropWhile (fun c => !isLineTerm c)).length ≤ l.length :=
            length_dropWhile_le' _ _
          rw [hdt] at hsub
          simp at hsub
          omega
        have hrec : (scanName true rest).isSome = true := ih rest hlen htail
        have hfl : l = l.takeWhile (fun c => !isLineTerm c) ++ t :: rest := by
          conv_lhs => rw [← List.takeWhile_append_dropWhile (p := fun c => !isLineTerm c) (l := l)]
          rw [hdt]
        rw [hfl]
        exact scanName_skip _ hterm true hrec

/-! ### Claim theorems -/

/-- C1: if the derived target test path already exists when the
create-test command is invoked, the orchestrator opens the existing file
and performs no write: the filesystem after the call equals the one
before (in particular every pre-existing file keeps its byte content),
and the performed actions contain no directory creation and no file
write. -/
theorem c1_existing_test_file_preserved (fs : FS) (root src cn : String)
    (h : fileExists fs (derivedTestFileInfo fs root src).testPath = true) :
    (handleCreateTestCommand fs (some root) src cn).1 = fs ∧
    (∀ p, FS.read (handleCreateTestCommand fs (some root) src cn).1 p = FS.read fs p) ∧
    (∀ p c, FsAction.write p c ∉ (handleCreateTestCommand fs (some root) src cn).2) ∧
    (∀ p, FsAction.createDir p ∉ (handleCreateTestCommand fs (some root) src cn).2) := by
  have he : handleCreateTestCommand fs (some root) src cn
      = (fs, [FsAction.openDoc (derivedTestFileInfo fs root src).testPath,
              FsAction.infoMsg ("Test file already exists: "
                ++ pbasename (derivedTestFileInfo fs root src).testPath)]) := by
    rw [handleCreateTestCommand]
    rw [if_pos h]
  refine ⟨by rw [he], fun p => by rw [he], ?_, ?_⟩
  · intro p c
    rw [he]
    simp
  · intro p
    rw [he]
    simp

theorem c1_existing_test_file_preserved_witness :
    fileExists (FS.mk [("/proj/scripts/tool_test.dart", "existing content")])
      (derivedTestFileInfo (FS.mk [("/proj/scripts/tool_test.dart", "existing content")])
        "/proj" "/proj/scripts/tool.dart").testPath = true ∧
    ((handleCreateTestCommand (FS.mk [("/proj/scripts/tool_test.dart", "existing content")])
        (some "/proj") "/proj/scripts/tool.dart" "Tool").1
      = FS.mk [("/proj/scripts/tool_test.dart", "existing content")] ∧
     (∀ p, FS.read (handleCreateTestCommand (FS.mk [("/proj/scripts/tool_test.dart", "existing content")])
        (some "/proj") "/proj/scripts/tool.dart" "Tool").1 p
      = FS.read (FS.mk [("/proj/scripts/tool_test.dart", "existing content")]) p) ∧
     (∀ p c, FsAction.write p c ∉ (handleCreateTestCommand (FS.mk [("/proj/scripts/tool_test.dart", "existing content")])
        (some "/proj") "/proj/scripts/tool.dart" "Tool").2) ∧
     (∀ p, FsAction.createDir p ∉ (handleCreateTestCommand (FS.mk [("/proj/scripts/tool_test.dart", "existing content")])
        (some "/proj") "/proj/scripts/tool.dart" "Tool").2)) :=
  ⟨by decide,
   c1_existing_test_file_preserved (FS.mk [("/proj/scripts/tool_test.dart", "existing content")])
     "/proj" "/proj/scripts/tool.dart" "Tool" (by decide)⟩

/-- C2: with a resolved package name, the import path of the library
branch is the package-qualified URI `package:<name>/<pathUnderLib>` for
every workspace root, source path, path under lib, basename, extension
and package name; and on the concrete `/proj` + `lib/models/user.dart` +
`my_app` inputs the derivation returns testPath
`/proj/test/models/user_test.dart` and importPath
`package:my_app/models/user.dart`. -/
theorem c2_lib_package_import :
    (∀ (root src rest sfn ext pn : String),
      (calculateTestFileInfoForLib root src ("lib/" ++ rest) sfn ext (some pn)).importPath
        = "package:" ++ pn ++ "/" ++ rest) ∧
    calculateTestFileInfoForLib "/proj" "/proj/lib/models/user.dart" "lib/models/user.dart"
        "user" ".dart" (some "my_app")
      = { testPath := "/proj/test/models/user_test.dart",
          importPath := "package:my_app/models/user.dart" } := by
  constructor
  · intro root src rest sfn ext pn
    show "package:" ++ pn ++ "/" ++ fwdSlashes rest = "package:" ++ pn ++ "/" ++ rest
    rw [fwdSlashes_id]
  · decide

/-- C3: in the library branch with no package name, the import path is
the relative path from the test file's directory back to the source
file, rendered with forward slashes: for a workspace root `/R`, a source
`lib/ds/fnL`, it is `../`·(ds.length+1) followed by `lib/ds/fnL`.  At
the claim's concrete input (root `/proj`, source
`/proj/lib/models/user.dart`) this is `../../lib/models/user.dart`
(checked by the witness). -/
theorem c3_lib_relative_fallback (R ds : List (List Char)) (fnL sfn ext : List Char)
    (hR : ∀ s ∈ R, cleanSegL s) (hds : ∀ s ∈ ds, cleanSegL s)
    (hfnL : cleanSegL fnL)
    (hsfn : ∀ c ∈ sfn, c ≠ '/') (hext : ∀ c ∈ ext, c ≠ '/') :
    (calculateTestFileInfoForLib (String.mk ('/' :: renderSegs R))
        (String.mk ('/' :: renderSegs (R ++ ['l', 'i', 'b'] :: (ds ++ [fnL]))))
        ("lib/" ++ String.mk (renderSegs (ds ++ [fnL])))
        (String.mk sfn) (String.mk ext) none).importPath
      = String.mk (renderSegs (List.replicate (ds.length + 1) ['.', '.']
          ++ ['l', 'i', 'b'] :: (ds ++ [fnL]))) :=
  calcLib_importPath_none R ds fnL sfn ext hR hds hfnL hsfn hext

theorem c3_lib_relative_fallback_witness :
    (∀ s ∈ [['p', 'r', 'o', 'j']], cleanSegL s) ∧
    (calculateTestFileInfoForLib "/proj" "/proj/lib/models/user.dart" "lib/models/user.dart"
        "user" ".dart" none).importPath = "../../lib/models/user.dart" :=
  ⟨by decide,
   c3_lib_relative_fallback [['p', 'r', 'o', 'j']] [['m', 'o', 'd', 'e', 'l', 's']]
     ['u', 's', 'e', 'r', '.', 'd', 'a', 'r', 't'] ['u', 's', 'e', 'r']
     ['.', 'd', 'a', 'r', 't'] (by decide) (by decide) (by decide) (by decide) (by decide)⟩

/-- C4: the class matcher produces a class site for a line exactly when
the line is optional whitespace, then zero or more modifier keywords of
the closed set each followed by whitespace, then `class`, whitespace and
an identifier beginning with an ASCII letter or underscore; the reported
name is exactly that identifier (so identifiers beginning with a digit,
or lines without the `class` keyword, never match). -/
theorem c4_class_regex_characterization (l nm : List Char) :
    matchClassName l = some nm ↔ specClassLine l nm :=
  ⟨matchClassName_sound, matchClassName_complete⟩

/-- C5: the generated test content for className `Widget` and importPath
`./widget.dart` is exactly the fixed template with both substitutions
performed: the import line, the `void main()` entry function and an
empty `group` named after the class. -/
theorem c5_generated_content_widget :
    generateTestContent "Widget" "./widget.dart"
      = "import \x27./widget.dart\x27;\n\nvoid main() \x7b\n  group(\x27Widget\x27, () \x7b\n\n  \x7d);\n\x7d\n" :=
  rfl

/-- C6: a source file directly at the library root still derives
correctly, the test file landing directly under the test root with no
nested directory: for root `/R` and relative path `lib/<file>`, the test
path is `/R/test/<sfn>_test<ext>`, for any package-name outcome.  The
witness instantiates the claim's `/proj/lib/app.dart` →
`/proj/test/app_test.dart` example. -/
theorem c6_lib_root_testPath (R : List (List Char)) (fnL sfn ext : List Char)
    (src : String) (pn : Option String)
    (hR : ∀ s ∈ R, cleanSegL s) (hfnL : ∀ c ∈ fnL, c ≠ '/') (hfne : fnL ≠ [])
    (hsfn : ∀ c ∈ sfn, c ≠ '/') (hext : ∀ c ∈ ext, c ≠ '/') :
    (calculateTestFileInfoForLib (String.mk ('/' :: renderSegs R)) src
        ("lib/" ++ String.mk fnL) (String.mk sfn) (String.mk ext) pn).testPath
      = String.mk ('/' :: renderSegs (R ++ [['t', 'e', 's', 't'],
          sfn ++ ['_', 't', 'e', 's', 't'] ++ ext])) := by
  refine (calcLib_testPath R [] fnL sfn ext src pn hR (by simp) hfnL hfne hsfn hext).trans ?_
  apply strExt
  simp

theorem c6_lib_root_testPath_witness :
    (∀ c ∈ ['a', 'p', 'p', '.', 'd', 'a', 'r', 't'], c ≠ '/') ∧
    (calculateTestFileInfoForLib "/proj" "/proj/lib/app.dart" "lib/app.dart"
        "app" ".dart" none).testPath = "/proj/test/app_test.dart" :=
  ⟨by decide,
   c6_lib_root_testPath [['p', 'r', 'o', 'j']] ['a', 'p', 'p', '.', 'd', 'a', 'r', 't']
     ['a', 'p', 'p'] ['.', 'd', 'a', 'r', 't'] "/proj/lib/app.dart" none
     (by decide) (by decide) (by decide) (by decide) (by decide)⟩

/-- C7: for every source outside the library directory the test file is
placed in the source's own directory with the `_test` suffix and
the import path is the same-directory reference `./<basename><ext>`; the
witness instantiates the claim's `/proj/scripts/tool.dart` example. -/
theorem c7_nonlib_sibling :
    (∀ (src sfn ext : String),
      (calculateTestFileInfoForNonLib src sfn ext).importPath = "./" ++ sfn ++ ext) ∧
    (∀ (R : List (List Char)) (f sfn ext : List Char),
      (∀ s ∈ R, cleanSegL s) → f ≠ [] → (∀ c ∈ f, c ≠ '/') →
      (∀ c ∈ sfn, c ≠ '/') → (∀ c ∈ ext, c ≠ '/') →
      calculateTestFileInfoForNonLib (String.mk ('/' :: renderSegs (R ++ [f])))
          (String.mk sfn) (String.mk ext)
        = { testPath := String.mk ('/' :: renderSegs (R ++ [sfn ++ ['_', 't', 'e', 's', 't'] ++ ext])),
            importPath := "./" ++ String.mk sfn ++ String.mk ext }) := by
  constructor
  · intro src sfn ext
    rfl
  · intro R f sfn ext h1 h2 h3 h4 h5
    exact calcNonLib_general R f sfn ext h1 h2 h3 h4 h5

theorem c7_nonlib_sibling_witness :
    (∀ c ∈ ['t', 'o', 'o', 'l', '.', 'd', 'a', 'r', 't'], c ≠ '/') ∧
    calculateTestFileInfoForNonLib "/proj/scripts/tool.dart" "tool" ".dart"
      = { testPath := "/proj/scripts/tool_test.dart", importPath := "./tool.dart" } :=
  ⟨by decide,
   c7_nonlib_sibling.2 [['p', 'r', 'o', 'j'], ['s', 'c', 'r', 'i', 'p', 't', 's']]
     ['t', 'o', 'o', 'l', '.', 'd', 'a', 'r', 't'] ['t', 'o', 'o', 'l']
     ['.', 'd', 'a', 'r', 't'] (by decide) (by decide) (by decide) (by decide) (by decide)⟩

/-- C8 counterexample: the claim that resolution returns an identifier
exactly when the manifest contains a line of the form
`name: <identifier>` is false on the code: the regex
`^name:\s*([a-z_][a-z0-9_]*)\s*$` is applied with `m` while `\s` also
matches line terminators, so the content `name:` + newline + `my_app`,
which has no such line, still resolves to `my_app`. -/
theorem c8_counterexample :
    getPackageName (FS.mk [("/proj/pubspec.yaml", "name:\nmy_app")]) "/proj" = some "my_app" ∧
    hasNameLine "name:\nmy_app" = false ∧
    FS.read (FS.mk [("/proj/pubspec.yaml", "name:\nmy_app")]) (pjoin2 "/proj" "pubspec.yaml")
      = some "name:\nmy_app" :=
  ⟨rfl, rfl, rfl⟩

/-- C8 (amended): when the manifest is absent or unreadable, resolution
returns null without failing; when the manifest is present and contains
a line of the form `name: <identifier>` it resolves to some identifier
(the match may also fire across a line break, since the whitespace after
`name:` can span line terminators — see the counterexample); and with no
resolvable package name the orchestrator derives the relative-import
fallback instead of failing, e.g. `../../lib/models/user.dart` for
`/proj/lib/models/user.dart`. -/
theorem c8_amended_resolution :
    (∀ (fs : FS) (root : String),
      FS.read fs (pjoin2 root "pubspec.yaml") = none → getPackageName fs root = none) ∧
    (∀ (fs : FS) (root c : String),
      FS.read fs (pjoin2 root "pubspec.yaml") = some c → hasNameLine c = true →
      (getPackageName fs root).isSome = true) ∧
    (derivedTestFileInfo (FS.mk []) "/proj" "/proj/lib/models/user.dart").importPath
      = "../../lib/models/user.dart" := by
  refine ⟨?_, ?_, by decide⟩
  · intro fs root h
    simp [getPackageName, h]
  · intro fs root c h hline
    simp only [getPackageName, h]
    have hsc : (scanName true c.data).isSome = true :=
      findName_aux c.data.length c.data le_rfl hline
    cases hf : findName c.data with
    | none => rw [show scanName true c.data = none from hf] at hsc; simp at hsc
    | some s => simp [hf]

theorem c8_amended_resolution_witness :
    hasNameLine "name: my_app\n" = true ∧
    (getPackageName (FS.mk [("/proj/pubspec.yaml", "name: my_app\n")]) "/proj").isSome = true ∧
    getPackageName (FS.mk []) "/p" = none :=
  ⟨by decide,
   c8_amended_resolution.2.1 (FS.mk [("/proj/pubspec.yaml", "name: my_app\n")]) "/proj"
     "name: my_app\n" rfl (by decide),
   c8_amended_resolution.1 (FS.mk []) "/p" rfl⟩

/-- C9: the library branch is taken exactly when the path relative to
the workspace root extends the exact segment prefix `lib/`; a directory
merely beginning with `lib` (such as `library/`) or a root-level file
name beginning with `lib` takes the non-library branch, as the two
concrete derivations show. -/
theorem c9_lib_prefix_branch :
    (∀ r : String, isUnderLibDirectory r = true ↔ ∃ rest : String, r = "lib/" ++ rest) ∧
    isUnderLibDirectory "library/foo.dart" = false ∧
    isUnderLibDirectory "libfoo.dart" = false ∧
    derivedTestFileInfo (FS.mk []) "/proj" "/proj/library/foo.dart"
      = { testPath := "/proj/library/foo_test.dart", importPath := "./foo.dart" } ∧
    derivedTestFileInfo (FS.mk []) "/proj" "/proj/libfoo.dart"
      = { testPath := "/proj/libfoo_test.dart", importPath := "./libfoo.dart" } := by
  refine ⟨?_, by decide, by decide, by decide, by decide⟩
  intro r
  constructor
  · intro h
    rw [isUnderLibDirectory, Bool.or_eq_true] at h
    have hpre : ("lib/" : String).data.isPrefixOf r.data = true := by
      rcases h with h | h
      · exact h
      · exact h
    obtain ⟨t, ht⟩ := List.isPrefixOf_iff_prefix.mp hpre
    exact ⟨String.mk t, strExt ht.symm⟩
  · rintro ⟨rest, rfl⟩
    rw [isUnderLibDirectory, Bool.or_eq_true]
    right
    exact List.isPrefixOf_iff_prefix.mpr ⟨rest.data, rfl⟩

/-- C10: the generator substitutes both inputs verbatim, with no
escaping or validation, into the fixed template — a single-quote
character in either input lands unescaped inside the generated quoted
strings, as the concrete instance shows. -/
theorem c10_generator_verbatim :
    (∀ (cn ip : String),
      generateTestContent cn ip
        = "import \x27" ++ ip ++ "\x27;\n\nvoid main() \x7b\n  group(\x27" ++ cn
            ++ "\x27, () \x7b\n\n  \x7d);\n\x7d\n") ∧
    generateTestContent "O\x27Brien" "./o\x27brien.dart"
      = "import \x27./o\x27brien.dart\x27;\n\nvoid main() \x7b\n  group(\x27O\x27Brien\x27, () \x7b\n\n  \x7d);\n\x7d\n" := by
  constructor
  · intro cn ip
    apply strExt
    simp [generateTestContent, strData_append, List.append_assoc]
  · rfl

end CreateDartTest
